import Mathlib

/-!
# extBlockMesh: quality diagnostic and cell-zone tagging

A shallow embedding of the two algorithmic parts of `main` in
`src/extBlockMesh.cpp`:

* the cell-zone loop (source lines 330-404): `zoneMap`, `zoneCells`, the
  running counters `cellI` and `freeZoneI`, and the population of `cz`;
* the quality loop (source lines 166-209): the neighbour tables `v1`, `v2`,
  `v3`, the per-corner quality `qA`, the per-cell mean `qAt` and the
  aggregates `qAmin` and `qAavg`.

Conventions of the embedding.

* `label` is modelled by `Nat`: the counters `cellI` and `freeZoneI` never
  exceed the number of cells and of blocks, which the program already holds
  in labels.
* `word` is modelled by `String`.
* `List<T>` / `DynamicList<T>` are modelled by `List T`; an index outside the
  list makes the embedded operation return `none`.
* `HashTable<label>` keyed by `word` is modelled by an association list kept
  in insertion order; `find` is `List.lookup` and `insert` of an absent key
  appends.  Results about the iteration over the table are stated for every
  permutation of the entries, since the table's iteration order is not the
  insertion order.
* `scalar` is modelled by a linearly ordered field `K`; `std::pow` is a
  parameter `pow : K → K → K`.  The theorems on the value of the quality
  formula instantiate `K` with the real numbers and `pow` with `Real.rpow`;
  the theorem on the aggregates holds for every field and every power
  function.  Rounding of floating-point arithmetic is not modelled, except
  that one example gives `pow` the value `std::pow` has in double arithmetic
  at the single argument it is called with.
* The library pieces the source calls but does not contain (`point`,
  `Tensor`, `det`, `magSqr`, `blockMesh::numZonedBlocks`) are modelled from
  their description in the specification.
-/

namespace ExtBlockMesh

/-! ## Cell zones: embedding -/

/-- Modelled from the spec: the library class `block` is not in the source; a
block carries its cells, `b.cells()` (one `labelList` per cell of the block),
and an optional zone name, `b.blockDef().zoneName()`, empty when absent. -/
structure block where
  cells : List (List Nat)
  zoneName : String

/-- Modelled from the spec: the library function `blockMesh::numZonedBlocks()`
called at source line 330 is not in the source; it is the number of blocks
whose zone name is not empty. -/
def numZonedBlocks : List block → Nat
  | [] => 0
  | b :: bs => (if b.zoneName ≠ "" then 1 else 0) + numZonedBlocks bs

/-- The variables of the zone loop (source lines 337-346). -/
structure ZoneState where
  zoneMap : List (String × Nat)
  zoneCells : List (List Nat)
  cellI : Nat
  freeZoneI : Nat

/-- State before the loop: empty `zoneMap`, `nZones` empty cell lists,
`cellI = 0`, `freeZoneI = 0`. -/
def zoneInit (nZones : Nat) : ZoneState :=
  { zoneMap := [], zoneCells := List.replicate nZones [], cellI := 0, freeZoneI := 0 }

/-- Source lines 356-371: look the zone name up; an unknown name takes the id
`freeZoneI`, which is then incremented, and is inserted in `zoneMap`; a known
name keeps its id.  Returns `zoneI` and the updated state. -/
def selectZone (st : ZoneState) (zoneName : String) : Nat × ZoneState :=
  match st.zoneMap.lookup zoneName with
  | none =>
    (st.freeZoneI,
      { st with zoneMap := st.zoneMap ++ [(zoneName, st.freeZoneI)],
                freeZoneI := st.freeZoneI + 1 })
  | some zoneI => (zoneI, st)

/-- Source lines 373-376: `forAll(blockCells, i) zoneCells[zoneI].append(cellI++)`.
The access `zoneCells[zoneI]` fails when `zoneI` is not an index of `zoneCells`. -/
def appendCells (zoneI : Nat) :
    List (List Nat) → List (List Nat) → Nat → Option (List (List Nat) × Nat)
  | [], zoneCells, cellI => some (zoneCells, cellI)
  | _ :: rest, zoneCells, cellI =>
    if zoneI < zoneCells.length then
      appendCells zoneI rest (zoneCells.modify (fun l => l ++ [cellI]) zoneI) (cellI + 1)
    else none

/-- One iteration of `forAll(blocks, blockI)` (source lines 350-381). -/
def zoneStep (st : ZoneState) (b : block) : Option ZoneState :=
  if b.zoneName ≠ "" then
    let sel := selectZone st b.zoneName
    match appendCells sel.1 b.cells sel.2.zoneCells sel.2.cellI with
    | none => none
    | some r => some { sel.2 with zoneCells := r.1, cellI := r.2 }
  else
    some { st with cellI := st.cellI + b.cells.length }

/-- The zone loop started in an arbitrary state. -/
def zoneLoopFrom : ZoneState → List block → Option ZoneState
  | st, [] => some st
  | st, b :: bs =>
    match zoneStep st b with
    | none => none
    | some st1 => zoneLoopFrom st1 bs

/-- The zone loop of `main` (source lines 337-382) for a given `nZones`. -/
def zoneLoop (nZones : Nat) (blocks : List block) : Option ZoneState :=
  zoneLoopFrom (zoneInit nZones) blocks

/-- Modelled from the spec: the library class `cellZone` is not in the source;
a zone is built at source lines 393-399 from a name, a list of cell labels and
an index. -/
structure cellZone where
  name : String
  cells : List Nat
  index : Nat

/-- Source lines 389-404: for every entry of the table, `cz[zoneI]` is set to a
new `cellZone` made of the key, `zoneCells[zoneI]` and `zoneI`.  An unset entry
of `cz` is `none`; either access fails when `zoneI` is out of range. -/
def populateCz (zoneCells : List (List Nat)) :
    List (String × Nat) → List (Option cellZone) → Option (List (Option cellZone))
  | [], cz => some cz
  | (key, zoneI) :: rest, cz =>
    match zoneCells[zoneI]? with
    | none => none
    | some cells =>
      if zoneI < cz.length then
        populateCz zoneCells rest (cz.set zoneI (some { name := key, cells := cells, index := zoneI }))
      else none

/-! ## Cell zones: specification-side definitions -/

/-- Total number of cells of a list of blocks. -/
def totalCells : List block → Nat
  | [] => 0
  | b :: bs => b.cells.length + totalCells bs

/-- Sum of the cell counts of the blocks that have a non-empty zone name. -/
def zonedCells : List block → Nat
  | [] => 0
  | b :: bs => (if b.zoneName ≠ "" then b.cells.length else 0) + zonedCells bs

/-- The distinct elements of a list in the order of their first occurrence. -/
def firstOccurrences : List String → List String
  | [] => []
  | x :: xs => x :: (firstOccurrences xs).filter (fun y => y ≠ x)

/-- The distinct non-empty zone names of a block list, in the order of their
first occurrence. -/
def zoneNames (blocks : List block) : List String :=
  firstOccurrences ((blocks.map block.zoneName).filter (fun z => z ≠ ""))

/-- The cell list the specification gives to zone `z`: the concatenation, over
the blocks named `z` in block order, of the consecutive indices
`off(b), ..., off(b) + n(b) - 1`, where `off` starts at `off0`. -/
def zoneCellsFrom (off0 : Nat) : List block → String → List Nat
  | [], _ => []
  | b :: bs, z =>
    (if b.zoneName = z then List.range' off0 b.cells.length else []) ++
      zoneCellsFrom (off0 + b.cells.length) bs z

/-- The specified cell list of the zone with id `m`: that of the `m`-th zone
name, and empty when there is no such name. -/
def zoneCellsAt (blocks : List block) (m : Nat) : List Nat :=
  match (zoneNames blocks)[m]? with
  | some z => zoneCellsFrom 0 blocks z
  | none => []

/-- The invariant of the zone loop after the blocks `pre` have been processed:
`zoneMap` pairs the zone names seen so far, in the order of their first
occurrence, with `0, 1, ...`; `freeZoneI` is their number; `cellI` is the
number of cells seen; and `zoneCells` holds the specified cell list of every
id below `nZones`, their lengths adding up to the cells of the zoned blocks. -/
structure ZoneInv (nZones : Nat) (pre : List block) (st : ZoneState) : Prop where
  map_eq : st.zoneMap = (zoneNames pre).zip (List.range (zoneNames pre).length)
  free_eq : st.freeZoneI = (zoneNames pre).length
  cell_eq : st.cellI = totalCells pre
  cells_eq : st.zoneCells = (List.range nZones).map (zoneCellsAt pre)
  sum_eq : (st.zoneCells.map List.length).sum = zonedCells pre

/-! ## Quality diagnostic: embedding -/

/-- Modelled from the spec: the library type `point` (`Vector<scalar>`) is not
in the source; a point is a 3-D coordinate. -/
structure point (K : Type) where
  x : K
  y : K
  z : K

/-- Modelled from the spec: the library type `Tensor<scalar>` is not in the
source; it is a 3x3 matrix, given by its nine components row by row. -/
structure Tensor (K : Type) where
  xx : K
  xy : K
  xz : K
  yx : K
  yy : K
  yz : K
  zx : K
  zy : K
  zz : K

section Quality

variable {K : Type} [LinearOrderedField K]

/-- Modelled from the spec: the library `operator-` on points is not in the
source; the edge vector from a corner to a neighbour is the component-wise
difference of the two points. -/
def point.sub (a b : point K) : point K :=
  { x := a.x - b.x, y := a.y - b.y, z := a.z - b.z }

/-- Modelled from the spec: the library constructor `Tensor<scalar>(p1, p2, p3)`
is not in the source; it forms the 3x3 matrix whose rows are the three
vectors. -/
def Tensor.ofRows (p1 p2 p3 : point K) : Tensor K :=
  { xx := p1.x, xy := p1.y, xz := p1.z,
    yx := p2.x, yy := p2.y, yz := p2.z,
    zx := p3.x, zy := p3.y, zz := p3.z }

/-- Modelled from the spec: the library function `det` is not in the source; it
is the determinant of the 3x3 matrix. -/
def det (t : Tensor K) : K :=
  t.xx * t.yy * t.zz + t.xy * t.yz * t.zx + t.xz * t.yx * t.zy
    - t.xx * t.yz * t.zy - t.xy * t.yx * t.zz - t.xz * t.yy * t.zx

/-- Modelled from the spec: the library function `magSqr` is not in the source;
on a tensor it is the Frobenius norm squared, the sum of the squares of the
nine components. -/
def magSqr (t : Tensor K) : K :=
  t.xx * t.xx + t.xy * t.xy + t.xz * t.xz
    + t.yx * t.yx + t.yy * t.yy + t.yz * t.yz
    + t.zx * t.zx + t.zy * t.zy + t.zz * t.zz

/-- The neighbour table `v1` (source lines 167-168). -/
def v1 : List Nat := [3, 0, 1, 2, 7, 4, 5, 6]

/-- The neighbour table `v2` (source lines 170-171). -/
def v2 : List Nat := [4, 5, 6, 7, 5, 6, 7, 4]

/-- The neighbour table `v3` (source lines 173-174). -/
def v3 : List Nat := [1, 2, 3, 0, 0, 1, 2, 3]

/-- The expression `pts[ptLabels[i]]`: the coordinates of corner `i` of the
cell with point labels `ptLabels`.  Either list access may fail. -/
def cornerPoint (pts : List (point K)) (ptLabels : List Nat) (i : Nat) : Option (point K) :=
  match ptLabels[i]? with
  | none => none
  | some l => pts[l]?

/-- Source lines 187-189: the edge vectors `p1`, `p2`, `p3` from corner `ptI`
to the corners `v1[ptI]`, `v2[ptI]`, `v3[ptI]`. -/
def edgeVectors (pts : List (point K)) (ptLabels : List Nat) (ptI : Nat) :
    Option (point K × point K × point K) :=
  match v1[ptI]?, v2[ptI]?, v3[ptI]? with
  | some i1, some i2, some i3 =>
    match cornerPoint pts ptLabels ptI, cornerPoint pts ptLabels i1,
      cornerPoint pts ptLabels i2, cornerPoint pts ptLabels i3 with
    | some c0, some c1, some c2, some c3 => some (c1.sub c0, c2.sub c0, c3.sub c0)
    | _, _, _, _ => none
  | _, _, _ => none

/-- Source lines 190-197: the quality `qA` of a corner with edge vectors
`p1`, `p2`, `p3`; `pow` stands for `std::pow`. -/
def cornerQuality (pow : K → K → K) (p1 p2 p3 : point K) : K :=
  let mA := Tensor.ofRows p1 p2 p3
  let sigma := det mA
  if sigma > 0 then 3 * pow sigma (2 / 3) / magSqr mA else 0

/-- The value of `qA` at corner `ptI` of a cell (source lines 187-197). -/
def qA (pow : K → K → K) (pts : List (point K)) (ptLabels : List Nat) (ptI : Nat) :
    Option K :=
  match edgeVectors pts ptLabels ptI with
  | none => none
  | some e => some (cornerQuality pow e.1 e.2.1 e.2.2)

/-- The loop `forAll(ptLabels, ptI)` accumulating `qAt += qA` (source lines
183-199), over the corner indices still to visit.  The copy of the labels into
`cellNodes` (source lines 180 and 185) has no effect on the reported values
and is left out. -/
def cornerLoop (pow : K → K → K) (pts : List (point K)) (ptLabels : List Nat) :
    List Nat → K → Option K
  | [], qAt => some qAt
  | ptI :: rest, qAt =>
    match qA pow pts ptLabels ptI with
    | none => none
    | some q => cornerLoop pow pts ptLabels rest (qAt + q)

/-- The cell quality `qAt` after `qAt /= 8` (source lines 182-200). -/
def cellQuality (pow : K → K → K) (pts : List (point K)) (ptLabels : List Nat) :
    Option K :=
  match cornerLoop pow pts ptLabels (List.range ptLabels.length) 0 with
  | none => none
  | some qAt => some (qAt / 8)

/-- The loop `forAll(cellLst, cellI)` on the pair `(qAmin, qAavg)` (source
lines 178-207).  A cell is given by its point labels, the list `ptLabels` of
source line 181. -/
def qualityLoopFrom (pow : K → K → K) (pts : List (point K)) :
    List (List Nat) → K × K → Option (K × K)
  | [], s => some s
  | ptLabels :: rest, s =>
    match cellQuality pow pts ptLabels with
    | none => none
    | some qAt =>
      qualityLoopFrom pow pts rest (if qAt < s.1 then qAt else s.1, s.2 + qAt)

/-- The two reported values (source lines 176-209): the pair
(`Average quality`, `Min quality`), that is `(qAavg/cellLst.size(), qAmin)`
with `qAmin` started at 1 and `qAavg` at 0. -/
def qualityReport (pow : K → K → K) (pts : List (point K)) (cellLst : List (List Nat)) :
    Option (K × K) :=
  match qualityLoopFrom pow pts cellLst (1, 0) with
  | none => none
  | some s => some (s.2 / (cellLst.length : K), s.1)

/-! ## Quality diagnostic: specification-side definitions -/

/-- A cell of the mesh is well formed: it has the 8 point labels of a
hexahedron and each of them is an index of the point list. -/
def WellFormedCell (pts : List (point K)) (ptLabels : List Nat) : Prop :=
  ptLabels.length = 8 ∧ ∀ l ∈ ptLabels, l < pts.length

/-- Scalar product of two vectors. -/
def point.dot (a b : point K) : K := a.x * b.x + a.y * b.y + a.z * b.z

/-- The corners of the axis-aligned cube of edge `h` with lowest corner `o`
and corner 1 along `x`, corner 3 along `y`, corner 4 along `z`. -/
def cubeCorners (o : point K) (h : K) : List (point K) :=
  [ { x := o.x, y := o.y, z := o.z },
    { x := o.x + h, y := o.y, z := o.z },
    { x := o.x + h, y := o.y + h, z := o.z },
    { x := o.x, y := o.y + h, z := o.z },
    { x := o.x, y := o.y, z := o.z + h },
    { x := o.x + h, y := o.y, z := o.z + h },
    { x := o.x + h, y := o.y + h, z := o.z + h },
    { x := o.x, y := o.y + h, z := o.z + h } ]

end Quality

/-! ## Concrete meshes -/

/-- The 27 points of the unit cube divided 2x2x2, point `(i, j, k)` of the
lattice at index `i + 3 j + 9 k`. -/
def unitCubePts (K : Type) [LinearOrderedField K] : List (point K) :=
  [ { x := 0, y := 0, z := 0 },
    { x := 1 / 2, y := 0, z := 0 },
    { x := 1, y := 0, z := 0 },
    { x := 0, y := 1 / 2, z := 0 },
    { x := 1 / 2, y := 1 / 2, z := 0 },
    { x := 1, y := 1 / 2, z := 0 },
    { x := 0, y := 1, z := 0 },
    { x := 1 / 2, y := 1, z := 0 },
    { x := 1, y := 1, z := 0 },
    { x := 0, y := 0, z := 1 / 2 },
    { x := 1 / 2, y := 0, z := 1 / 2 },
    { x := 1, y := 0, z := 1 / 2 },
    { x := 0, y := 1 / 2, z := 1 / 2 },
    { x := 1 / 2, y := 1 / 2, z := 1 / 2 },
    { x := 1, y := 1 / 2, z := 1 / 2 },
    { x := 0, y := 1, z := 1 / 2 },
    { x := 1 / 2, y := 1, z := 1 / 2 },
    { x := 1, y := 1, z := 1 / 2 },
    { x := 0, y := 0, z := 1 },
    { x := 1 / 2, y := 0, z := 1 },
    { x := 1, y := 0, z := 1 },
    { x := 0, y := 1 / 2, z := 1 },
    { x := 1 / 2, y := 1 / 2, z := 1 },
    { x := 1, y := 1 / 2, z := 1 },
    { x := 0, y := 1, z := 1 },
    { x := 1 / 2, y := 1, z := 1 },
    { x := 1, y := 1, z := 1 } ]

/-- The 8 cells of the unit cube divided 2x2x2, each by its point labels in the
standard hexahedron ordering. -/
def unitCubeCells : List (List Nat) :=
  [ [0, 1, 4, 3, 9, 10, 13, 12],
    [1, 2, 5, 4, 10, 11, 14, 13],
    [3, 4, 7, 6, 12, 13, 16, 15],
    [4, 5, 8, 7, 13, 14, 17, 16],
    [9, 10, 13, 12, 18, 19, 22, 21],
    [10, 11, 14, 13, 19, 20, 23, 22],
    [12, 13, 16, 15, 21, 22, 25, 24],
    [13, 14, 17, 16, 22, 23, 26, 25] ]

/-- The labels of a mesh made of one hexahedron. -/
def oneCell : List Nat := [0, 1, 2, 3, 4, 5, 6, 7]

/-- The unit cube with corner 6 pulled inward to `(1/4, 1/4, 1/4)`: the cell is
inverted at that corner. -/
def invertedPts (K : Type) [LinearOrderedField K] : List (point K) :=
  [ { x := 0, y := 0, z := 0 }, { x := 1, y := 0, z := 0 },
    { x := 1, y := 1, z := 0 }, { x := 0, y := 1, z := 0 },
    { x := 0, y := 0, z := 1 }, { x := 1, y := 0, z := 1 },
    { x := 1 / 4, y := 1 / 4, z := 1 / 4 }, { x := 0, y := 1, z := 1 } ]

/-- The unit cube with corner 1 moved onto corner 0: a collapsed cell in which
two corner points coincide. -/
def collapsedPts (K : Type) [LinearOrderedField K] : List (point K) :=
  [ { x := 0, y := 0, z := 0 }, { x := 0, y := 0, z := 0 },
    { x := 1, y := 1, z := 0 }, { x := 0, y := 1, z := 0 },
    { x := 0, y := 0, z := 1 }, { x := 1, y := 0, z := 1 },
    { x := 1, y := 1, z := 1 }, { x := 0, y := 1, z := 1 } ]

/-- The labels of a collapsed cell on the corners of a cube: corner 1 carries
the label of corner 0. -/
def collapsedCell : List Nat := [0, 0, 2, 3, 4, 5, 6, 7]

/-- A mesh of two cells on the eight corners of a cube: the cube itself and
the collapsed cell. -/
def twoCells : List (List Nat) := [oneCell, collapsedCell]

/-- The corners of the cube of edge `1/4` with lowest corner at the origin. -/
def quarterCubePts (K : Type) [LinearOrderedField K] : List (point K) :=
  cubeCorners { x := 0, y := 0, z := 0 } (1 / 4)

/-- The value of `std::pow` in IEEE double arithmetic at the only pair of
arguments the quality loop passes on the cube of edge `1/4`: the double
returned by `std::pow(1/64, 2.0/3.0)` is the one next above `1/16`, that is
`1/16 * (1 + 2^-52)`.  No other pair of arguments is used; there the value is
set to 0. -/
def stdPowDouble (x y : ℚ) : ℚ :=
  if x = 1 / 64 ∧ y = 2 / 3 then 1 / 16 * (1 + 1 / 2 ^ 52) else 0

/-- Four blocks, two zone names, one block without a zone. -/
def exampleBlocks : List block :=
  [ { cells := [[], []], zoneName := "inlet" },
    { cells := [[]], zoneName := "" },
    { cells := [[], [], []], zoneName := "outlet" },
    { cells := [[]], zoneName := "inlet" } ]

/-! ## Cell zones: auxiliary lemmas -/

theorem numZonedBlocks_append (a b : List block) :
    numZonedBlocks (a ++ b) = numZonedBlocks a + numZonedBlocks b := by
  induction a with
  | nil => simp [numZonedBlocks]
  | cons x xs ih => simp [numZonedBlocks, ih]; omega

theorem totalCells_append (a b : List block) :
    totalCells (a ++ b) = totalCells a + totalCells b := by
  induction a with
  | nil => simp [totalCells]
  | cons x xs ih => simp [totalCells, ih]; omega

theorem zonedCells_append (a b : List block) :
    zonedCells (a ++ b) = zonedCells a + zonedCells b := by
  induction a with
  | nil => simp [zonedCells]
  | cons x xs ih => simp [zonedCells, ih]; omega

theorem mem_firstOccurrences (l : List String) (x : String) :
    x ∈ firstOccurrences l ↔ x ∈ l := by
  induction l with
  | nil => simp [firstOccurrences]
  | cons y ys ih =>
    simp only [firstOccurrences, List.mem_cons, List.mem_filter, ih]
    by_cases h : x = y <;> simp [h]

theorem nodup_firstOccurrences (l : List String) : (firstOccurrences l).Nodup := by
  induction l with
  | nil => simp [firstOccurrences]
  | cons y ys ih =>
    simp only [firstOccurrences, List.nodup_cons, List.mem_filter]
    exact ⟨by simp, ih.filter _⟩

theorem firstOccurrences_snoc (l : List String) (x : String) :
    firstOccurrences (l ++ [x]) =
      if x ∈ l then firstOccurrences l else firstOccurrences l ++ [x] := by
  induction l with
  | nil => simp [firstOccurrences]
  | cons y ys ih =>
    rw [List.cons_append, firstOccurrences, ih]
    by_cases hxy : x = y
    · subst hxy
      by_cases hm : x ∈ ys <;> simp [hm, List.filter_append, firstOccurrences]
    · by_cases hm : x ∈ ys <;> simp [hm, hxy, List.filter_append, firstOccurrences]

theorem zoneNames_snoc (pre : List block) (b : block) :
    zoneNames (pre ++ [b]) =
      if b.zoneName = "" ∨ b.zoneName ∈ zoneNames pre then zoneNames pre
      else zoneNames pre ++ [b.zoneName] := by
  unfold zoneNames
  by_cases hz : b.zoneName = ""
  · simp [hz, List.filter_append]
  · simp only [List.map_append, List.map_cons, List.map_nil, List.filter_append]
    have : List.filter (fun z => decide (z ≠ "")) [b.zoneName] = [b.zoneName] := by
      simp [hz]
    rw [this, firstOccurrences_snoc]
    simp only [hz, false_or, mem_firstOccurrences]

theorem mem_zoneNames (blocks : List block) (z : String) :
    z ∈ zoneNames blocks ↔ z ≠ "" ∧ ∃ b ∈ blocks, b.zoneName = z := by
  unfold zoneNames
  rw [mem_firstOccurrences]
  simp only [List.mem_filter, List.mem_map, decide_eq_true_eq]
  tauto

theorem nodup_zoneNames (blocks : List block) : (zoneNames blocks).Nodup :=
  nodup_firstOccurrences _

theorem length_zoneNames_le (blocks : List block) :
    (zoneNames blocks).length ≤ numZonedBlocks blocks := by
  induction blocks using List.reverseRecOn with
  | nil => simp [zoneNames, firstOccurrences]
  | append_singleton pre b ih =>
    rw [zoneNames_snoc, numZonedBlocks_append]
    by_cases hz : b.zoneName = ""
    · simp [hz, numZonedBlocks]; omega
    · by_cases hm : b.zoneName ∈ zoneNames pre
      · simp [hz, hm, numZonedBlocks]; omega
      · simp [hz, hm, numZonedBlocks]; omega

theorem zoneCellsFrom_append (off0 : Nat) (a b : List block) (z : String) :
    zoneCellsFrom off0 (a ++ b) z =
      zoneCellsFrom off0 a z ++ zoneCellsFrom (off0 + totalCells a) b z := by
  induction a generalizing off0 with
  | nil => simp [zoneCellsFrom, totalCells]
  | cons x xs ih =>
    rw [List.cons_append, zoneCellsFrom, zoneCellsFrom, ih, totalCells, List.append_assoc,
      Nat.add_assoc]

theorem zoneCellsFrom_eq_nil (off0 : Nat) (blocks : List block) (z : String)
    (h : ∀ b ∈ blocks, b.zoneName ≠ z) : zoneCellsFrom off0 blocks z = [] := by
  induction blocks generalizing off0 with
  | nil => simp [zoneCellsFrom]
  | cons x xs ih =>
    have hx : x.zoneName ≠ z := h x (List.mem_cons_self _ _)
    simp [zoneCellsFrom, hx, ih _ (fun b hb => h b (List.mem_cons_of_mem _ hb))]


theorem lookup_zip_range' (z : String) (names : List String) (s : Nat) :
    List.lookup z (names.zip (List.range' s names.length)) =
      if z ∈ names then some (s + names.indexOf z) else none := by
  induction names generalizing s with
  | nil => simp
  | cons x xs ih =>
    rw [List.length_cons, List.range'_succ, List.zip_cons_cons, List.lookup_cons]
    by_cases h : z = x
    · subst h; simp
    · have hb : (z == x) = false := by simp [h]
      rw [hb]
      simp only [ih, List.mem_cons, h, false_or, List.indexOf_cons_ne _ (Ne.symm h)]
      by_cases hm : z ∈ xs
      · simp [hm]; omega
      · simp [hm]

theorem lookup_zoneMap (z : String) (names : List String) :
    List.lookup z (names.zip (List.range names.length)) =
      if z ∈ names then some (names.indexOf z) else none := by
  rw [List.range_eq_range', lookup_zip_range']
  simp

theorem modify_map_range (f : List Nat → List Nat) (g : Nat → List Nat) (i N : Nat) :
    List.modify f i ((List.range N).map g) =
      (List.range N).map (fun m => if i = m then f (g m) else g m) := by
  apply List.ext_getElem?
  intro m
  rw [List.getElem?_modify]
  by_cases hm : m < N
  · simp [List.getElem?_range hm]
  · simp [List.getElem?_eq_none, Nat.le_of_not_lt hm]

theorem modify_modify_same (f g : List Nat → List Nat) (i : Nat) (l : List (List Nat)) :
    List.modify g i (List.modify f i l) = List.modify (fun a => g (f a)) i l := by
  apply List.ext_getElem?
  intro m
  simp only [List.getElem?_modify]
  cases l[m]? with
  | none => rfl
  | some a => by_cases h : i = m <;> simp [h]

theorem modify_append_nil (i : Nat) (l : List (List Nat)) :
    List.modify (fun a => a ++ []) i l = l := by
  apply List.ext_getElem?
  intro m
  simp only [List.getElem?_modify]
  cases l[m]? with
  | none => rfl
  | some a => simp

theorem appendCells_eq (zoneI : Nat) (cells zc : List (List Nat)) (cellI : Nat)
    (h : zoneI < zc.length) :
    appendCells zoneI cells zc cellI =
      some (List.modify (fun a => a ++ List.range' cellI cells.length) zoneI zc,
        cellI + cells.length) := by
  induction cells generalizing zc cellI with
  | nil =>
    rw [appendCells, List.length_nil, List.range'_zero, modify_append_nil, Nat.add_zero]
  | cons c cs ih =>
    rw [appendCells, if_pos h, ih _ _ (by rw [List.length_modify]; exact h),
      modify_modify_same]
    simp only [List.length_cons, List.range'_succ, List.append_assoc, List.singleton_append]
    congr 2
    omega

theorem zoneCellsFrom_snoc (pre : List block) (b : block) (z : String) :
    zoneCellsFrom 0 (pre ++ [b]) z =
      zoneCellsFrom 0 pre z ++
        (if b.zoneName = z then List.range' (totalCells pre) b.cells.length else []) := by
  rw [zoneCellsFrom_append]
  simp [zoneCellsFrom]

theorem zoneCellsAt_snoc_unzoned (pre : List block) (b : block) (hz : b.zoneName = "")
    (m : Nat) : zoneCellsAt (pre ++ [b]) m = zoneCellsAt pre m := by
  unfold zoneCellsAt
  rw [zoneNames_snoc, if_pos (Or.inl hz)]
  cases hm : (zoneNames pre)[m]? with
  | none => rfl
  | some z =>
    have hmem : z ∈ zoneNames pre := by
      obtain ⟨hlt, hget⟩ := List.getElem?_eq_some_iff.1 hm
      exact hget ▸ List.getElem_mem hlt
    have hne : z ≠ "" := ((mem_zoneNames pre z).1 hmem).1
    have : b.zoneName ≠ z := by rw [hz]; exact Ne.symm hne
    simp [zoneCellsFrom_snoc, this]

theorem zoneCellsAt_snoc_known (pre : List block) (b : block)
    (hm : b.zoneName ∈ zoneNames pre) (m : Nat) :
    zoneCellsAt (pre ++ [b]) m =
      if (zoneNames pre).indexOf b.zoneName = m then
        zoneCellsAt pre m ++ List.range' (totalCells pre) b.cells.length
      else zoneCellsAt pre m := by
  unfold zoneCellsAt
  rw [zoneNames_snoc, if_pos (Or.inr hm)]
  cases hg : (zoneNames pre)[m]? with
  | none =>
    have h1 : (zoneNames pre).length ≤ m := List.getElem?_eq_none_iff.1 hg
    have h2 : (zoneNames pre).indexOf b.zoneName < (zoneNames pre).length :=
      List.indexOf_lt_length.2 hm
    have h3 : (zoneNames pre).indexOf b.zoneName ≠ m := by omega
    simp [h3]
  | some z =>
    obtain ⟨hlt, hget⟩ := List.getElem?_eq_some_iff.1 hg
    simp only [zoneCellsFrom_snoc]
    by_cases hbz : b.zoneName = z
    · have : (zoneNames pre).indexOf b.zoneName = m := by
        rw [hbz, ← hget]
        exact List.indexOf_getElem (nodup_zoneNames pre) m hlt
      rw [if_pos hbz, if_pos this]
    · have : (zoneNames pre).indexOf b.zoneName ≠ m := by
        intro he
        apply hbz
        have h2 : (zoneNames pre).indexOf b.zoneName < (zoneNames pre).length :=
          List.indexOf_lt_length.2 hm
        have h3 := List.getElem_indexOf h2
        rw [← hget, ← h3]
        congr 1
      simp [hbz, this]

theorem zoneCellsAt_snoc_new (pre : List block) (b : block) (hz : b.zoneName ≠ "")
    (hm : b.zoneName ∉ zoneNames pre) (m : Nat) :
    zoneCellsAt (pre ++ [b]) m =
      if (zoneNames pre).length = m then
        zoneCellsAt pre m ++ List.range' (totalCells pre) b.cells.length
      else zoneCellsAt pre m := by
  unfold zoneCellsAt
  rw [zoneNames_snoc, if_neg (by tauto)]
  rcases Nat.lt_trichotomy m (zoneNames pre).length with hlt | heq | hgt
  · rw [List.getElem?_append_left hlt]
    have hg : (zoneNames pre)[m]? = some (zoneNames pre)[m] := List.getElem?_eq_getElem hlt
    rw [hg]
    have hmem : (zoneNames pre)[m] ∈ zoneNames pre := List.getElem_mem hlt
    have hne : b.zoneName ≠ (zoneNames pre)[m] := fun h => hm (h ▸ hmem)
    have h3 : (zoneNames pre).length ≠ m := by omega
    simp [zoneCellsFrom_snoc, hne, h3]
  · subst heq
    have hnil : zoneCellsFrom 0 pre b.zoneName = [] := by
      apply zoneCellsFrom_eq_nil
      intro c hc hcz
      exact hm ((mem_zoneNames pre _).2 ⟨hz, c, hc, hcz⟩)
    simp [zoneCellsFrom_snoc, hnil]
  · have h3 : (zoneNames pre).length ≠ m := by omega
    have hg : (zoneNames pre)[m]? = none := List.getElem?_eq_none_iff.2 (by omega)
    have hg2 : (zoneNames pre ++ [b.zoneName])[m]? = none :=
      List.getElem?_eq_none_iff.2 (by simp; omega)
    simp [hg, hg2, h3]

theorem sum_length_modify (r : List Nat) (i : Nat) (l : List (List Nat)) (h : i < l.length) :
    ((List.modify (fun a => a ++ r) i l).map List.length).sum =
      (l.map List.length).sum + r.length := by
  induction l generalizing i with
  | nil => simp at h
  | cons a t ih =>
    cases i with
    | zero => simp; omega
    | succ j =>
      have hj : j < t.length := by simpa using h
      simp [ih j hj]; omega

theorem zoneInv_init (nZones : Nat) : ZoneInv nZones [] (zoneInit nZones) := by
  refine ⟨by simp [zoneInit, zoneNames, firstOccurrences],
    by simp [zoneInit, zoneNames, firstOccurrences], by simp [zoneInit, totalCells], ?_,
    by simp [zoneInit, zonedCells]⟩
  apply List.ext_getElem?
  intro m
  by_cases hm : m < nZones
  · simp [zoneInit, List.getElem?_range hm, List.getElem?_replicate, hm, zoneCellsAt, zoneNames,
      firstOccurrences]
  · simp [zoneInit, List.getElem?_eq_none, Nat.le_of_not_lt hm]

theorem zoneStep_inv (nZones : Nat) (pre : List block) (st : ZoneState) (b : block)
    (hinv : ZoneInv nZones pre st) (hle : (zoneNames (pre ++ [b])).length ≤ nZones) :
    ∃ st1, zoneStep st b = some st1 ∧ ZoneInv nZones (pre ++ [b]) st1 ∧
      (b.zoneName ≠ "" → (selectZone st b.zoneName).1 < nZones) := by
  obtain ⟨hmap, hfree, hcell, hcells, hsum⟩ := hinv
  have hlen : st.zoneCells.length = nZones := by rw [hcells]; simp
  by_cases hz : b.zoneName = ""
  · refine ⟨ZoneState.mk st.zoneMap st.zoneCells (st.cellI + b.cells.length) st.freeZoneI,
      by simp [zoneStep, hz], ?_, fun h => absurd hz h⟩
    refine ⟨?_, ?_, ?_, ?_, ?_⟩
    · simp [zoneNames_snoc, hz, hmap]
    · simp [zoneNames_snoc, hz, hfree]
    · simp [totalCells_append, totalCells, hcell]
    · simp only [hcells]
      apply List.map_congr_left
      intro m _
      exact (zoneCellsAt_snoc_unzoned pre b hz m).symm
    · simp [zonedCells_append, zonedCells, hz, hsum]
  · by_cases hm : b.zoneName ∈ zoneNames pre
    · have hidx : (zoneNames pre).indexOf b.zoneName < (zoneNames pre).length :=
        List.indexOf_lt_length.2 hm
      have hnames : zoneNames (pre ++ [b]) = zoneNames pre := by
        rw [zoneNames_snoc, if_pos (Or.inr hm)]
      rw [hnames] at hle
      have hsel : selectZone st b.zoneName = ((zoneNames pre).indexOf b.zoneName, st) := by
        simp [selectZone, hmap, lookup_zoneMap, hm]
      have happ := appendCells_eq ((zoneNames pre).indexOf b.zoneName) b.cells st.zoneCells
        st.cellI (by omega)
      refine ⟨ZoneState.mk st.zoneMap
          (List.modify (fun a => a ++ List.range' st.cellI b.cells.length)
            ((zoneNames pre).indexOf b.zoneName) st.zoneCells)
          (st.cellI + b.cells.length) st.freeZoneI, ?_, ?_, ?_⟩
      · simp [zoneStep, hz, hsel, happ]
      · refine ⟨?_, ?_, ?_, ?_, ?_⟩
        · simp [hnames, hmap]
        · simp [hnames, hfree]
        · simp [totalCells_append, totalCells, hcell]
        · simp only [hcells, modify_map_range]
          apply List.map_congr_left
          intro m _
          rw [zoneCellsAt_snoc_known pre b hm m, hcell]
        · show (List.map List.length (List.modify _ _ st.zoneCells)).sum = _
          rw [sum_length_modify _ _ _ (by omega), hsum]
          simp [zonedCells_append, zonedCells, hz]
      · intro _
        rw [hsel]
        show (zoneNames pre).indexOf b.zoneName < nZones
        omega
    · have hnames : zoneNames (pre ++ [b]) = zoneNames pre ++ [b.zoneName] := by
        rw [zoneNames_snoc, if_neg (by tauto)]
      rw [hnames, List.length_append, List.length_singleton] at hle
      have hsel : selectZone st b.zoneName =
          (st.freeZoneI, { st with zoneMap := st.zoneMap ++ [(b.zoneName, st.freeZoneI)],
                                   freeZoneI := st.freeZoneI + 1 }) := by
        simp [selectZone, hmap, lookup_zoneMap, hm]
      have happ := appendCells_eq st.freeZoneI b.cells st.zoneCells st.cellI (by omega)
      refine ⟨ZoneState.mk (st.zoneMap ++ [(b.zoneName, st.freeZoneI)])
          (List.modify (fun a => a ++ List.range' st.cellI b.cells.length)
            st.freeZoneI st.zoneCells)
          (st.cellI + b.cells.length) (st.freeZoneI + 1), ?_, ?_, ?_⟩
      · simp [zoneStep, hz, hsel, happ]
      · refine ⟨?_, ?_, ?_, ?_, ?_⟩
        · simp only [hnames, hmap, hfree, List.length_append, List.length_singleton,
            List.range_succ]
          rw [List.zip_append (by simp)]
          simp
        · simp [hnames, hfree]
        · simp [totalCells_append, totalCells, hcell]
        · simp only [hcells, modify_map_range]
          apply List.map_congr_left
          intro m _
          rw [zoneCellsAt_snoc_new pre b hz hm m, hcell, hfree]
        · show (List.map List.length (List.modify _ _ st.zoneCells)).sum = _
          rw [sum_length_modify _ _ _ (by omega), hsum]
          simp [zonedCells_append, zonedCells, hz]
      · intro _
        rw [hsel]
        show st.freeZoneI < nZones
        omega

theorem zoneLoopFrom_inv (nZones : Nat) (rest pre : List block) (st : ZoneState)
    (hinv : ZoneInv nZones pre st) (hle : numZonedBlocks (pre ++ rest) ≤ nZones) :
    ∃ st1, zoneLoopFrom st rest = some st1 ∧ ZoneInv nZones (pre ++ rest) st1 := by
  induction rest generalizing pre st with
  | nil => exact ⟨st, rfl, by simpa using hinv⟩
  | cons b bs ih =>
    have hsplit : pre ++ b :: bs = (pre ++ [b]) ++ bs := by simp
    have h1 : (zoneNames (pre ++ [b])).length ≤ nZones := by
      have := length_zoneNames_le (pre ++ [b])
      rw [hsplit, numZonedBlocks_append] at hle
      omega
    obtain ⟨st1, hstep, hinv1, _⟩ := zoneStep_inv nZones pre st b hinv h1
    obtain ⟨st2, hloop, hinv2⟩ := ih (pre ++ [b]) st1 hinv1 (hsplit ▸ hle)
    exact ⟨st2, by simp [zoneLoopFrom, hstep, hloop], hsplit ▸ hinv2⟩

theorem zoneLoop_inv (blocks : List block) :
    ∃ st, zoneLoop (numZonedBlocks blocks) blocks = some st ∧
      ZoneInv (numZonedBlocks blocks) blocks st := by
  simpa [zoneLoop] using
    zoneLoopFrom_inv (numZonedBlocks blocks) blocks [] _ (zoneInv_init _) (by simp)

theorem zoneCellsFrom_bounds (off0 : Nat) (blocks : List block) (z : String) (c : Nat)
    (hc : c ∈ zoneCellsFrom off0 blocks z) : off0 ≤ c ∧ c < off0 + totalCells blocks := by
  induction blocks generalizing off0 with
  | nil => simp [zoneCellsFrom] at hc
  | cons b bs ih =>
    rw [zoneCellsFrom, List.mem_append] at hc
    rw [totalCells]
    rcases hc with h | h
    · by_cases hb : b.zoneName = z
      · rw [if_pos hb, List.mem_range'_1] at h
        omega
      · simp [hb] at h
    · have := ih _ h
      omega

theorem zoneCellsFrom_sorted (off0 : Nat) (blocks : List block) (z : String) :
    (zoneCellsFrom off0 blocks z).Pairwise (fun a b => a < b) := by
  induction blocks generalizing off0 with
  | nil => simp [zoneCellsFrom]
  | cons b bs ih =>
    rw [zoneCellsFrom, List.pairwise_append]
    refine ⟨?_, ih _, ?_⟩
    · by_cases hb : b.zoneName = z
      · rw [if_pos hb]; exact List.pairwise_lt_range' _ _
      · simp [hb]
    · intro x hx y hy
      have h2 := zoneCellsFrom_bounds _ _ _ _ hy
      by_cases hb : b.zoneName = z
      · rw [if_pos hb, List.mem_range'_1] at hx
        omega
      · simp [hb] at hx

theorem zoneCellsFrom_disjoint (off0 : Nat) (blocks : List block) (z1 z2 : String)
    (hne : z1 ≠ z2) :
    List.Disjoint (zoneCellsFrom off0 blocks z1) (zoneCellsFrom off0 blocks z2) := by
  induction blocks generalizing off0 with
  | nil => simp [zoneCellsFrom]
  | cons b bs ih =>
    rw [List.disjoint_left]
    intro c h1 h2
    rw [zoneCellsFrom, List.mem_append] at h1 h2
    rcases h1 with h1 | h1 <;> rcases h2 with h2 | h2
    · by_cases hb1 : b.zoneName = z1
      · have hb2 : b.zoneName ≠ z2 := fun h => hne (hb1.symm.trans h)
        simp [hb2] at h2
      · simp [hb1] at h1
    · have hb := zoneCellsFrom_bounds _ _ _ _ h2
      by_cases hb1 : b.zoneName = z1
      · rw [if_pos hb1, List.mem_range'_1] at h1
        omega
      · simp [hb1] at h1
    · have hb := zoneCellsFrom_bounds _ _ _ _ h1
      by_cases hb2 : b.zoneName = z2
      · rw [if_pos hb2, List.mem_range'_1] at h2
        omega
      · simp [hb2] at h2
    · exact List.disjoint_left.1 (ih _) h1 h2

theorem zoneCellsAt_bounds (blocks : List block) (m c : Nat) (hc : c ∈ zoneCellsAt blocks m) :
    c < totalCells blocks := by
  unfold zoneCellsAt at hc
  cases hg : (zoneNames blocks)[m]? with
  | none => simp [hg] at hc
  | some z =>
    rw [hg] at hc
    have := zoneCellsFrom_bounds 0 blocks z c hc
    omega

theorem zoneCellsAt_sorted (blocks : List block) (m : Nat) :
    (zoneCellsAt blocks m).Pairwise (fun a b => a < b) := by
  unfold zoneCellsAt
  cases (zoneNames blocks)[m]? with
  | none => simp
  | some z => exact zoneCellsFrom_sorted 0 blocks z

theorem zoneCellsAt_disjoint (blocks : List block) (i j : Nat) (hij : i ≠ j) :
    List.Disjoint (zoneCellsAt blocks i) (zoneCellsAt blocks j) := by
  unfold zoneCellsAt
  cases hi : (zoneNames blocks)[i]? with
  | none => simp
  | some z1 =>
    cases hj : (zoneNames blocks)[j]? with
    | none => simp
    | some z2 =>
      apply zoneCellsFrom_disjoint
      intro he
      obtain ⟨hli, hgi⟩ := List.getElem?_eq_some_iff.1 hi
      obtain ⟨hlj, hgj⟩ := List.getElem?_eq_some_iff.1 hj
      apply hij
      have hinj : (zoneNames blocks)[i] = (zoneNames blocks)[j] ↔ i = j :=
        List.Nodup.getElem_inj_iff (nodup_zoneNames blocks)
      exact hinj.1 (by rw [hgi, hgj, he])

theorem getElem?_map_range (g : Nat → List Nat) (N i : Nat) (l : List Nat)
    (h : ((List.range N).map g)[i]? = some l) : i < N ∧ l = g i := by
  by_cases hi : i < N
  · simp [List.getElem?_range hi] at h
    exact ⟨hi, h.symm⟩
  · simp [List.getElem?_eq_none, Nat.le_of_not_lt hi] at h

theorem lookup_zoneMap_iff (names : List String) (hnd : names.Nodup) (z : String) (i : Nat) :
    List.lookup z (names.zip (List.range names.length)) = some i ↔ names[i]? = some z := by
  rw [lookup_zoneMap]
  constructor
  · intro h
    by_cases hm : z ∈ names
    · rw [if_pos hm] at h
      have hi : names.indexOf z = i := by simpa using h
      rw [← hi]
      exact List.getElem?_indexOf hm
    · simp [hm] at h
  · intro h
    obtain ⟨hlt, hget⟩ := List.getElem?_eq_some_iff.1 h
    have hm : z ∈ names := hget ▸ List.getElem_mem hlt
    rw [if_pos hm, ← hget, List.indexOf_getElem hnd i hlt]

theorem zoneNames_initial (pre post : List block) :
    zoneNames pre <+: zoneNames (pre ++ post) := by
  induction post using List.reverseRecOn with
  | nil => simp
  | append_singleton post b ih =>
    rw [← List.append_assoc, zoneNames_snoc]
    split
    · exact ih
    · exact ih.trans (List.prefix_append _ _)

theorem zoneLoop_initial_inv (pre post : List block) :
    ∃ s, zoneLoop (numZonedBlocks (pre ++ post)) pre = some s ∧
      ZoneInv (numZonedBlocks (pre ++ post)) pre s := by
  simpa [zoneLoop] using
    zoneLoopFrom_inv (numZonedBlocks (pre ++ post)) pre [] _ (zoneInv_init _)
      (by rw [List.nil_append, numZonedBlocks_append]; omega)

theorem populateCz_spec (zc : List (List Nat)) (order : List (String × Nat))
    (cz : List (Option cellZone))
    (hr : ∀ e ∈ order, e.2 < zc.length ∧ e.2 < cz.length)
    (hnd : (order.map Prod.snd).Nodup) :
    ∃ cz1, populateCz zc order cz = some cz1 ∧ cz1.length = cz.length ∧
      (∀ e ∈ order, ∃ cells, zc[e.2]? = some cells ∧
        cz1[e.2]? = some (some { name := e.1, cells := cells, index := e.2 })) ∧
      (∀ j, j ∉ order.map Prod.snd → cz1[j]? = cz[j]?) := by
  induction order generalizing cz with
  | nil => exact ⟨cz, rfl, rfl, by simp, by simp⟩
  | cons e rest ih =>
    obtain ⟨key, i⟩ := e
    have hi := hr (key, i) (List.mem_cons_self _ _)
    rw [List.map_cons, List.nodup_cons] at hnd
    have hget : zc[i]? = some zc[i] := List.getElem?_eq_getElem hi.1
    obtain ⟨cz1, hpop, hlen, hset, hkeep⟩ :=
      ih (cz.set i (some { name := key, cells := zc[i], index := i }))
        (fun e he => by
          have := hr e (List.mem_cons_of_mem _ he)
          simpa using this)
        hnd.2
    refine ⟨cz1, ?_, by simpa using hlen, ?_, ?_⟩
    · simp [populateCz, hget, hi.2, hpop]
    · intro e he
      rcases List.mem_cons.1 he with rfl | he
      · refine ⟨zc[i], hget, ?_⟩
        rw [hkeep i hnd.1]
        exact List.getElem?_set_self hi.2
      · exact hset e he
    · intro j hj
      rw [List.map_cons, List.mem_cons, not_or] at hj
      rw [hkeep j hj.2]
      exact List.getElem?_set_ne (Ne.symm hj.1)

theorem exists_first_named (blocks : List block) (z : String)
    (h : ∃ b ∈ blocks, b.zoneName = z) :
    ∃ pre b post, blocks = pre ++ b :: post ∧ b.zoneName = z ∧ ∀ x ∈ pre, x.zoneName ≠ z := by
  induction blocks with
  | nil => simp at h
  | cons x xs ih =>
    by_cases hx : x.zoneName = z
    · exact ⟨[], x, xs, rfl, hx, by simp⟩
    · obtain ⟨b, hb, hbz⟩ := h
      have hb2 : b ∈ xs := by
        rcases List.mem_cons.1 hb with rfl | hb1
        · exact absurd hbz hx
        · exact hb1
      obtain ⟨pre, b1, post, hsplit, hb1, hpre⟩ := ih ⟨b, hb2, hbz⟩
      refine ⟨x :: pre, b1, post, by rw [hsplit]; rfl, hb1, ?_⟩
      intro y hy
      rcases List.mem_cons.1 hy with rfl | hy1
      · exact hx
      · exact hpre y hy1

/-- The ids follow the order of first occurrence: when `z1` has a smaller index
than `z2` in `zoneNames`, a block named `z1` comes before the first block named
`z2`. -/
theorem zoneNames_order (blocks : List block) (z1 z2 : String) (i1 i2 : Nat)
    (h1 : (zoneNames blocks)[i1]? = some z1) (h2 : (zoneNames blocks)[i2]? = some z2)
    (hlt : i1 < i2) :
    ∃ pre b post, blocks = pre ++ b :: post ∧ b.zoneName = z2 ∧
      (∀ x ∈ pre, x.zoneName ≠ z2) ∧ ∃ x ∈ pre, x.zoneName = z1 := by
  obtain ⟨hl1, hg1⟩ := List.getElem?_eq_some_iff.1 h1
  obtain ⟨hl2, hg2⟩ := List.getElem?_eq_some_iff.1 h2
  have hz2 : z2 ∈ zoneNames blocks := hg2 ▸ List.getElem_mem hl2
  obtain ⟨hne2, hex⟩ := (mem_zoneNames blocks z2).1 hz2
  obtain ⟨pre, b, post, hsplit, hbz, hpre⟩ := exists_first_named blocks z2 hex
  refine ⟨pre, b, post, hsplit, hbz, hpre, ?_⟩
  have hnot : b.zoneName ∉ zoneNames pre := by
    intro hm
    obtain ⟨_, x, hx, hxz⟩ := (mem_zoneNames pre _).1 hm
    exact hpre x hx (hxz.trans hbz)
  have hsnoc : zoneNames (pre ++ [b]) = zoneNames pre ++ [z2] := by
    rw [zoneNames_snoc, if_neg (by rw [hbz] at hnot ⊢; tauto), hbz]
  have hsplit2 : blocks = (pre ++ [b]) ++ post := by rw [hsplit]; simp
  have hpfx : zoneNames pre ++ [z2] <+: zoneNames blocks := by
    rw [← hsnoc]
    conv_rhs => rw [hsplit2]
    exact zoneNames_initial (pre ++ [b]) post
  have hk : (zoneNames pre).length < (zoneNames pre ++ [z2]).length := by simp
  have hk2 : (zoneNames pre).length < (zoneNames blocks).length :=
    Nat.lt_of_lt_of_le hk hpfx.length_le
  have hat : (zoneNames blocks)[(zoneNames pre).length] = z2 := by
    rw [← hpfx.getElem hk]
    simp
  have hinj : (zoneNames blocks)[i2] = (zoneNames blocks)[(zoneNames pre).length] ↔
      i2 = (zoneNames pre).length := List.Nodup.getElem_inj_iff (nodup_zoneNames blocks)
  have hi2 : i2 = (zoneNames pre).length := hinj.1 (by rw [hg2, hat])
  have hl1p : i1 < (zoneNames pre).length := by omega
  have hpfx2 : zoneNames pre <+: zoneNames blocks :=
    (List.prefix_append _ _).trans hpfx
  have hz1 : z1 ∈ zoneNames pre := by
    rw [← hg1, ← hpfx2.getElem hl1p]
    exact List.getElem_mem hl1p
  obtain ⟨_, x, hx, hxz⟩ := (mem_zoneNames pre z1).1 hz1
  exact ⟨x, hx, hxz⟩

/-! ## Cell zones: the claims -/

/-- C4 (zone disjointness): for every block list the zone loop, run with
`nZones = numZonedBlocks blocks`, ends in a state whose cell lists are pairwise
disjoint, contain no index twice, hold only indices below the total number of
cells, and whose lengths add up to the cell counts of the zoned blocks. -/
theorem zoneCells_disjoint (blocks : List block) :
    ∃ st, zoneLoop (numZonedBlocks blocks) blocks = some st ∧
      (∀ (i j : Nat) (li lj : List Nat), i ≠ j → st.zoneCells[i]? = some li → st.zoneCells[j]? = some lj →
        List.Disjoint li lj) ∧
      (∀ l ∈ st.zoneCells, l.Nodup) ∧
      (∀ l ∈ st.zoneCells, ∀ c ∈ l, c < totalCells blocks) ∧
      (st.zoneCells.map List.length).sum = zonedCells blocks := by
  obtain ⟨st, hloop, hinv⟩ := zoneLoop_inv blocks
  refine ⟨st, hloop, ?_, ?_, ?_, hinv.sum_eq⟩
  · intro i j li lj hij hi hj
    rw [hinv.cells_eq] at hi hj
    rw [(getElem?_map_range _ _ _ _ hi).2, (getElem?_map_range _ _ _ _ hj).2]
    exact zoneCellsAt_disjoint blocks i j hij
  · intro l hl
    rw [hinv.cells_eq, List.mem_map] at hl
    obtain ⟨m, _, rfl⟩ := hl
    exact (zoneCellsAt_sorted blocks m).imp (fun h => Nat.ne_of_lt h)
  · intro l hl c hc
    rw [hinv.cells_eq, List.mem_map] at hl
    obtain ⟨m, _, rfl⟩ := hl
    exact zoneCellsAt_bounds blocks m c hc

theorem zoneCellsFrom_split (pre : List block) (b : block) (post : List block) :
    zoneCellsFrom 0 (pre ++ b :: post) b.zoneName =
      zoneCellsFrom 0 pre b.zoneName ++ List.range' (totalCells pre) b.cells.length ++
        zoneCellsFrom (totalCells pre + b.cells.length) post b.zoneName := by
  rw [zoneCellsFrom_append, zoneCellsFrom, if_pos rfl, Nat.zero_add, List.append_assoc]

theorem mem_zoneCellsFrom (off0 : Nat) (blocks : List block) (z : String) (c : Nat)
    (hc : c ∈ zoneCellsFrom off0 blocks z) :
    ∃ pre b post, blocks = pre ++ b :: post ∧ b.zoneName = z ∧
      off0 + totalCells pre ≤ c ∧ c < off0 + totalCells pre + b.cells.length := by
  induction blocks generalizing off0 with
  | nil => simp [zoneCellsFrom] at hc
  | cons x xs ih =>
    rw [zoneCellsFrom, List.mem_append] at hc
    rcases hc with h | h
    · by_cases hx : x.zoneName = z
      · rw [if_pos hx, List.mem_range'_1] at h
        exact ⟨[], x, xs, rfl, hx, by simp [totalCells]; omega, by simp [totalCells]; omega⟩
      · simp [hx] at h
    · obtain ⟨pre, b, post, hsplit, hb, h1, h2⟩ := ih _ h
      refine ⟨x :: pre, b, post, by rw [hsplit]; rfl, hb, ?_, ?_⟩
      · rw [totalCells]; omega
      · rw [totalCells]; omega

/-- C5 (zone contents): for every block list the zone loop ends in a state in
which every block with a non-empty zone name has its name in `zoneMap`, and
the cell list of the zone of that name is the concatenation, over the blocks
of that name in block order, of the consecutive indices starting at the offset
of the block: the indices contributed by the earlier blocks of the name, then
`off(b), ..., off(b) + n(b) - 1`, then those of the later blocks of the name.
The list of the zone of each name `z` is `zoneCellsFrom 0 blocks z`, and each
of its indices lies in the index range of a block named `z`; the lists of the
ids that no name received are empty; every list is strictly increasing; the
running cell counter ends at the total number of cells; and a block with an
empty zone name changes nothing but the cell counter, which advances by its
cell count. -/
theorem zoneCells_contents (blocks : List block) :
    ∃ st, zoneLoop (numZonedBlocks blocks) blocks = some st ∧
      st.zoneCells.length = numZonedBlocks blocks ∧
      (∀ pre b post, blocks = pre ++ b :: post → b.zoneName ≠ "" →
        ∃ i, st.zoneMap.lookup b.zoneName = some i ∧ i < numZonedBlocks blocks ∧
          st.zoneCells[i]? =
            some (zoneCellsFrom 0 pre b.zoneName ++
              List.range' (totalCells pre) b.cells.length ++
              zoneCellsFrom (totalCells pre + b.cells.length) post b.zoneName)) ∧
      (∀ z i, st.zoneMap.lookup z = some i →
        st.zoneCells[i]? = some (zoneCellsFrom 0 blocks z)) ∧
      (∀ (z : String) (i : Nat) (l : List Nat), st.zoneMap.lookup z = some i →
        st.zoneCells[i]? = some l → ∀ c ∈ l,
          ∃ pre b post, blocks = pre ++ b :: post ∧ b.zoneName = z ∧
            totalCells pre ≤ c ∧ c < totalCells pre + b.cells.length) ∧
      (∀ i, (zoneNames blocks).length ≤ i → i < numZonedBlocks blocks →
        st.zoneCells[i]? = some []) ∧
      (∀ l ∈ st.zoneCells, l.Pairwise (fun a b => a < b)) ∧
      st.cellI = totalCells blocks ∧
      (∀ (s : ZoneState) (b : block), b.zoneName = "" →
        zoneStep s b = some (ZoneState.mk s.zoneMap s.zoneCells (s.cellI + b.cells.length)
          s.freeZoneI)) := by
  obtain ⟨st, hloop, hinv⟩ := zoneLoop_inv blocks
  have hlen := length_zoneNames_le blocks
  have hcontent : ∀ z i, st.zoneMap.lookup z = some i →
      st.zoneCells[i]? = some (zoneCellsFrom 0 blocks z) := by
    intro z i hz
    rw [hinv.map_eq, lookup_zoneMap_iff _ (nodup_zoneNames blocks)] at hz
    obtain ⟨hlt, _⟩ := List.getElem?_eq_some_iff.1 hz
    have hi : i < numZonedBlocks blocks := by omega
    simp [hinv.cells_eq, List.getElem?_range hi, zoneCellsAt, hz]
  refine ⟨st, hloop, by simp [hinv.cells_eq], ?_, hcontent, ?_, ?_, ?_, hinv.cell_eq, ?_⟩
  · intro pre b post hsplit hb
    have hmem : b.zoneName ∈ zoneNames blocks :=
      (mem_zoneNames blocks _).2 ⟨hb, b, by rw [hsplit]; simp, rfl⟩
    obtain ⟨i, hi, hget⟩ := List.getElem_of_mem hmem
    have hget2 : (zoneNames blocks)[i]? = some b.zoneName := by
      rw [List.getElem?_eq_getElem hi, hget]
    have hlook : st.zoneMap.lookup b.zoneName = some i := by
      rw [hinv.map_eq, lookup_zoneMap_iff _ (nodup_zoneNames blocks)]
      exact hget2
    refine ⟨i, hlook, by omega, ?_⟩
    rw [hcontent _ _ hlook, hsplit, zoneCellsFrom_split]
  · intro z i l hz hl c hc
    rw [hcontent z i hz] at hl
    rw [← Option.some.inj hl] at hc
    obtain ⟨pre, b, post, hsplit, hbz, h1, h2⟩ := mem_zoneCellsFrom 0 blocks z c hc
    exact ⟨pre, b, post, hsplit, hbz, by omega, by omega⟩
  · intro i hge hi
    have hnone : (zoneNames blocks)[i]? = none := List.getElem?_eq_none_iff.2 hge
    simp [hinv.cells_eq, List.getElem?_range hi, zoneCellsAt, hnone]
  · intro l hl
    rw [hinv.cells_eq, List.mem_map] at hl
    obtain ⟨m, _, rfl⟩ := hl
    exact zoneCellsAt_sorted blocks m
  · intro s b hb
    simp [zoneStep, hb]

/-- C6 (zone id assignment): for every block list the zone loop ends with a
`zoneMap` that pairs the distinct non-empty zone names, in the order of their
first occurrence, with the ids `0, 1, ..., k-1`; no two names share an id; a
name with a smaller id occurs before the first occurrence of a name with a
larger id; and the id a name has in the table after any initial segment of the
blocks is the id it has at the end. -/
theorem zoneMap_first_occurrence_ids (blocks : List block) :
    ∃ st, zoneLoop (numZonedBlocks blocks) blocks = some st ∧
      st.zoneMap = (zoneNames blocks).zip (List.range (zoneNames blocks).length) ∧
      st.freeZoneI = (zoneNames blocks).length ∧
      (zoneNames blocks).Nodup ∧
      (∀ z, z ∈ zoneNames blocks ↔ z ≠ "" ∧ ∃ b ∈ blocks, b.zoneName = z) ∧
      (∀ z i, st.zoneMap.lookup z = some i ↔ (zoneNames blocks)[i]? = some z) ∧
      (∀ z1 z2 i, st.zoneMap.lookup z1 = some i → st.zoneMap.lookup z2 = some i → z1 = z2) ∧
      (∀ z1 z2 i1 i2, st.zoneMap.lookup z1 = some i1 → st.zoneMap.lookup z2 = some i2 →
        i1 < i2 →
        ∃ pre b post, blocks = pre ++ b :: post ∧ b.zoneName = z2 ∧
          (∀ x ∈ pre, x.zoneName ≠ z2) ∧ ∃ x ∈ pre, x.zoneName = z1) ∧
      (∀ pre post, blocks = pre ++ post →
        ∃ s, zoneLoop (numZonedBlocks blocks) pre = some s ∧
          ∀ z i, s.zoneMap.lookup z = some i → st.zoneMap.lookup z = some i) := by
  obtain ⟨st, hloop, hinv⟩ := zoneLoop_inv blocks
  have hiff : ∀ z i, st.zoneMap.lookup z = some i ↔ (zoneNames blocks)[i]? = some z := by
    intro z i
    rw [hinv.map_eq]
    exact lookup_zoneMap_iff _ (nodup_zoneNames blocks) z i
  refine ⟨st, hloop, hinv.map_eq, hinv.free_eq, nodup_zoneNames blocks, mem_zoneNames blocks,
    hiff, ?_, ?_, ?_⟩
  · intro z1 z2 i h1 h2
    have e1 := (hiff z1 i).1 h1
    have e2 := (hiff z2 i).1 h2
    rw [e1] at e2
    exact Option.some.inj e2
  · intro z1 z2 i1 i2 h1 h2 hlt
    exact zoneNames_order blocks z1 z2 i1 i2 ((hiff z1 i1).1 h1) ((hiff z2 i2).1 h2) hlt
  · intro pre post hsplit
    subst hsplit
    obtain ⟨s, hs, hsinv⟩ := zoneLoop_initial_inv pre post
    refine ⟨s, hs, ?_⟩
    intro z i hz
    rw [hsinv.map_eq, lookup_zoneMap_iff _ (nodup_zoneNames pre)] at hz
    rw [hiff]
    obtain ⟨hlt, hget⟩ := List.getElem?_eq_some_iff.1 hz
    have hpre := zoneNames_initial pre post
    have hlt2 : i < (zoneNames (pre ++ post)).length := Nat.lt_of_lt_of_le hlt hpre.length_le
    rw [List.getElem?_eq_getElem hlt2, ← hpre.getElem hlt, hget]

/-- C10 (zone indexing is in bounds): for every block list with
`nZones = numZonedBlocks blocks > 0`, the zone loop never indexes `zoneCells`
outside its `nZones` entries (it returns a state), every `zoneI` it selects for a
zoned block is below `nZones`, the ids stored in `zoneMap` are exactly
`0, ..., zoneMap.size()-1`, and for every iteration order of the table the
population of `cz` stays in range, sets each entry to the zone with that index
and leaves none unset. -/
theorem zone_indexing_in_bounds (blocks : List block) (hn : 0 < numZonedBlocks blocks) :
    ∃ st, zoneLoop (numZonedBlocks blocks) blocks = some st ∧
      st.zoneCells.length = numZonedBlocks blocks ∧
      (∀ pre b post, blocks = pre ++ b :: post → b.zoneName ≠ "" →
        ∃ s, zoneLoop (numZonedBlocks blocks) pre = some s ∧
          (selectZone s b.zoneName).1 < numZonedBlocks blocks) ∧
      st.zoneMap.map Prod.snd = List.range st.zoneMap.length ∧
      st.zoneMap.length ≤ numZonedBlocks blocks ∧
      (∀ order, List.Perm order st.zoneMap →
        ∃ cz, populateCz st.zoneCells order (List.replicate st.zoneMap.length none) = some cz ∧
          cz.length = st.zoneMap.length ∧
          ∀ i, i < st.zoneMap.length → ∃ z, cz[i]? = some (some z) ∧ z.index = i) := by
  obtain ⟨st, hloop, hinv⟩ := zoneLoop_inv blocks
  have hlenle := length_zoneNames_le blocks
  have hzc : st.zoneCells.length = numZonedBlocks blocks := by simp [hinv.cells_eq]
  have hmaplen : st.zoneMap.length = (zoneNames blocks).length := by simp [hinv.map_eq]
  have hsnd : st.zoneMap.map Prod.snd = List.range st.zoneMap.length := by
    rw [hmaplen, hinv.map_eq]
    exact List.map_snd_zip _ _ (by simp)
  refine ⟨st, hloop, hzc, ?_, hsnd, by omega, ?_⟩
  · intro pre b post hsplit hb
    subst hsplit
    obtain ⟨s, hs, hsinv⟩ := zoneLoop_initial_inv pre (b :: post)
    refine ⟨s, hs, ?_⟩
    have hsplit : pre ++ b :: post = (pre ++ [b]) ++ post := by simp
    have hle : (zoneNames (pre ++ [b])).length ≤ numZonedBlocks (pre ++ b :: post) := by
      have := length_zoneNames_le (pre ++ [b])
      rw [hsplit, numZonedBlocks_append]
      omega
    obtain ⟨_, _, _, hsel⟩ := zoneStep_inv _ pre s b hsinv hle
    exact hsel hb
  · intro order hperm
    have hids : (order.map Prod.snd).Perm (List.range st.zoneMap.length) := by
      rw [← hsnd]
      exact hperm.map _
    have hnd : (order.map Prod.snd).Nodup := hids.nodup_iff.2 (List.nodup_range _)
    have hr : ∀ e ∈ order, e.2 < st.zoneCells.length ∧
        e.2 < (List.replicate st.zoneMap.length (none : Option cellZone)).length := by
      intro e he
      have hmem : e.2 ∈ List.range st.zoneMap.length :=
        hids.mem_iff.1 (List.mem_map_of_mem _ he)
      rw [List.mem_range] at hmem
      rw [List.length_replicate]
      omega
    obtain ⟨cz, hpop, hlen, hset, _⟩ := populateCz_spec st.zoneCells order _ hr hnd
    refine ⟨cz, hpop, by simpa using hlen, ?_⟩
    intro i hi
    have hmem : i ∈ order.map Prod.snd := hids.mem_iff.2 (List.mem_range.2 hi)
    obtain ⟨e, he, rfl⟩ := List.mem_map.1 hmem
    obtain ⟨cells, _, hcz⟩ := hset e he
    exact ⟨_, hcz, rfl⟩

/-! ## Quality diagnostic: auxiliary lemmas -/

theorem magSqr_ofRows (p1 p2 p3 : point ℝ) :
    magSqr (Tensor.ofRows p1 p2 p3) = p1.dot p1 + p2.dot p2 + p3.dot p3 := by
  simp only [magSqr, Tensor.ofRows, point.dot]
  ring

theorem dot_self_nonneg (p : point ℝ) : 0 ≤ p.dot p := by
  simp only [point.dot]
  nlinarith [mul_self_nonneg p.x, mul_self_nonneg p.y, mul_self_nonneg p.z]

/-- Hadamard's inequality for three vectors. -/
theorem det_sq_le (p1 p2 p3 : point ℝ) :
    det (Tensor.ofRows p1 p2 p3) ^ 2 ≤ p1.dot p1 * (p2.dot p2 * p3.dot p3) := by
  obtain ⟨a1, a2, a3⟩ := p1
  obtain ⟨b1, b2, b3⟩ := p2
  obtain ⟨c1, c2, c3⟩ := p3
  simp only [det, Tensor.ofRows, point.dot]
  have h1 : (a1 * b2 * c3 + a2 * b3 * c1 + a3 * b1 * c2 - a1 * b3 * c2 - a2 * b1 * c3
        - a3 * b2 * c1) ^ 2
      = (a1 * a1 + a2 * a2 + a3 * a3) *
          ((b2 * c3 - b3 * c2) ^ 2 + (b3 * c1 - b1 * c3) ^ 2 + (b1 * c2 - b2 * c1) ^ 2)
        - ((a2 * (b1 * c2 - b2 * c1) - a3 * (b3 * c1 - b1 * c3)) ^ 2
          + (a3 * (b2 * c3 - b3 * c2) - a1 * (b1 * c2 - b2 * c1)) ^ 2
          + (a1 * (b3 * c1 - b1 * c3) - a2 * (b2 * c3 - b3 * c2)) ^ 2) := by ring
  have h2 : (b2 * c3 - b3 * c2) ^ 2 + (b3 * c1 - b1 * c3) ^ 2 + (b1 * c2 - b2 * c1) ^ 2
      = (b1 * b1 + b2 * b2 + b3 * b3) * (c1 * c1 + c2 * c2 + c3 * c3)
        - (b1 * c1 + b2 * c2 + b3 * c3) ^ 2 := by ring
  rw [h1, h2]
  have ha : 0 ≤ a1 * a1 + a2 * a2 + a3 * a3 := by
    nlinarith [mul_self_nonneg a1, mul_self_nonneg a2, mul_self_nonneg a3]
  have hd : 0 ≤ (a1 * a1 + a2 * a2 + a3 * a3) * (b1 * c1 + b2 * c2 + b3 * c3) ^ 2 :=
    mul_nonneg ha (sq_nonneg _)
  linarith [sq_nonneg (a2 * (b1 * c2 - b2 * c1) - a3 * (b3 * c1 - b1 * c3)),
    sq_nonneg (a3 * (b2 * c3 - b3 * c2) - a1 * (b1 * c2 - b2 * c1)),
    sq_nonneg (a1 * (b3 * c1 - b1 * c3) - a2 * (b2 * c3 - b3 * c2))]

theorem rpow_two_thirds (s : ℝ) (hs : 0 ≤ s) : s ^ ((2 : ℝ) / 3) = (s ^ 2) ^ ((1 : ℝ) / 3) := by
  rw [← Real.rpow_natCast s 2, ← Real.rpow_mul hs]
  norm_num

/-- Arithmetic-geometric mean inequality for three non-negative numbers. -/
theorem three_mul_cbrt_le (a b c : ℝ) (ha : 0 ≤ a) (hb : 0 ≤ b) (hc : 0 ≤ c) :
    3 * (a * (b * c)) ^ ((1 : ℝ) / 3) ≤ a + b + c := by
  have h := @Real.geom_mean_le_arith_mean3_weighted (1 / 3) (1 / 3) (1 / 3) a b c
    (by norm_num) (by norm_num) (by norm_num) ha hb hc (by norm_num)
  rw [Real.mul_rpow ha (mul_nonneg hb hc), Real.mul_rpow hb hc, ← mul_assoc]
  linarith

theorem three_mul_rpow_le_magSqr (p1 p2 p3 : point ℝ)
    (hs : 0 < det (Tensor.ofRows p1 p2 p3)) :
    3 * det (Tensor.ofRows p1 p2 p3) ^ ((2 : ℝ) / 3) ≤ magSqr (Tensor.ofRows p1 p2 p3) := by
  rw [rpow_two_thirds _ hs.le, magSqr_ofRows]
  have h1 : (det (Tensor.ofRows p1 p2 p3) ^ 2) ^ ((1 : ℝ) / 3) ≤
      (p1.dot p1 * (p2.dot p2 * p3.dot p3)) ^ ((1 : ℝ) / 3) :=
    Real.rpow_le_rpow (sq_nonneg _) (det_sq_le p1 p2 p3) (by norm_num)
  have h2 := three_mul_cbrt_le _ _ _ (dot_self_nonneg p1) (dot_self_nonneg p2)
    (dot_self_nonneg p3)
  linarith

theorem cornerQuality_of_nonpos (p1 p2 p3 : point ℝ)
    (hs : det (Tensor.ofRows p1 p2 p3) ≤ 0) : cornerQuality Real.rpow p1 p2 p3 = 0 := by
  simp only [cornerQuality, gt_iff_lt, if_neg (not_lt.2 hs)]

theorem cornerQuality_of_pos (p1 p2 p3 : point ℝ)
    (hs : 0 < det (Tensor.ofRows p1 p2 p3)) :
    cornerQuality Real.rpow p1 p2 p3 =
      3 * det (Tensor.ofRows p1 p2 p3) ^ ((2 : ℝ) / 3) / magSqr (Tensor.ofRows p1 p2 p3) := by
  simp only [cornerQuality, gt_iff_lt, if_pos hs, Real.rpow_eq_pow]

theorem cornerQuality_pos (p1 p2 p3 : point ℝ)
    (hs : 0 < det (Tensor.ofRows p1 p2 p3)) : 0 < cornerQuality Real.rpow p1 p2 p3 := by
  rw [cornerQuality_of_pos p1 p2 p3 hs]
  have hnum : 0 < 3 * det (Tensor.ofRows p1 p2 p3) ^ ((2 : ℝ) / 3) :=
    mul_pos (by norm_num) (Real.rpow_pos_of_pos hs _)
  exact div_pos hnum (lt_of_lt_of_le hnum (three_mul_rpow_le_magSqr p1 p2 p3 hs))

theorem cornerQuality_nonneg (p1 p2 p3 : point ℝ) : 0 ≤ cornerQuality Real.rpow p1 p2 p3 := by
  by_cases hs : 0 < det (Tensor.ofRows p1 p2 p3)
  · exact (cornerQuality_pos p1 p2 p3 hs).le
  · exact (cornerQuality_of_nonpos p1 p2 p3 (not_lt.1 hs)).ge

theorem cornerQuality_le_one (p1 p2 p3 : point ℝ) : cornerQuality Real.rpow p1 p2 p3 ≤ 1 := by
  by_cases hs : 0 < det (Tensor.ofRows p1 p2 p3)
  · rw [cornerQuality_of_pos p1 p2 p3 hs]
    have hnum : 0 < 3 * det (Tensor.ofRows p1 p2 p3) ^ ((2 : ℝ) / 3) :=
      mul_pos (by norm_num) (Real.rpow_pos_of_pos hs _)
    have hle := three_mul_rpow_le_magSqr p1 p2 p3 hs
    exact (div_le_one (lt_of_lt_of_le hnum hle)).2 hle
  · rw [cornerQuality_of_nonpos p1 p2 p3 (not_lt.1 hs)]
    norm_num

theorem nbr_tables (ptI : Nat) (h : ptI < 8) :
    ∃ i1 i2 i3, v1[ptI]? = some i1 ∧ v2[ptI]? = some i2 ∧ v3[ptI]? = some i3 ∧
      i1 < 8 ∧ i2 < 8 ∧ i3 < 8 := by
  interval_cases ptI <;> simp [v1, v2, v3]

theorem exists_points {K : Type} [LinearOrderedField K] (pts : List (point K)) (cell : List Nat) (h : ∀ l ∈ cell, l < pts.length) :
    ∃ P : List (point K), P.length = cell.length ∧ cell.map (fun l => pts[l]?) = P.map some := by
  induction cell with
  | nil => exact ⟨[], rfl, rfl⟩
  | cons l ls ih =>
    obtain ⟨P, hlen, hP⟩ := ih (fun x hx => h x (List.mem_cons_of_mem _ hx))
    have hl : l < pts.length := h l (List.mem_cons_self _ _)
    exact ⟨pts[l] :: P, by simp [hlen], by simp [hP, List.getElem?_eq_getElem hl]⟩

theorem cornerPoint_eq {K : Type} [LinearOrderedField K] (pts : List (point K)) (cell : List Nat) (P : List (point K))
    (hP : cell.map (fun l => pts[l]?) = P.map some) (i : Nat) :
    cornerPoint pts cell i = P[i]? := by
  have h := congrArg (fun L => L[i]?) hP
  simp only [List.getElem?_map] at h
  unfold cornerPoint
  cases hc : cell[i]? with
  | none =>
    rw [hc] at h
    cases hp : P[i]? with
    | none => rfl
    | some p => rw [hp] at h; simp at h
  | some l =>
    rw [hc] at h
    cases hp : P[i]? with
    | none => rw [hp] at h; simp at h
    | some p => rw [hp] at h; simpa using h

theorem edgeVectors_of_points {K : Type} [LinearOrderedField K] (pts : List (point K)) (cell : List Nat) (P : List (point K))
    (hP : cell.map (fun l => pts[l]?) = P.map some) (ptI i1 i2 i3 : Nat) (c0 c1 c2 c3 : point K)
    (h1 : v1[ptI]? = some i1) (h2 : v2[ptI]? = some i2) (h3 : v3[ptI]? = some i3)
    (e0 : P[ptI]? = some c0) (e1 : P[i1]? = some c1) (e2 : P[i2]? = some c2)
    (e3 : P[i3]? = some c3) :
    edgeVectors pts cell ptI = some (c1.sub c0, c2.sub c0, c3.sub c0) := by
  rw [edgeVectors, h1, h2, h3]
  simp only [cornerPoint_eq pts cell P hP, e0, e1, e2, e3]

theorem edgeVectors_isSome {K : Type} [LinearOrderedField K] (pts : List (point K)) (cell : List Nat) (hwf : WellFormedCell pts cell)
    (ptI : Nat) (h : ptI < 8) : ∃ e, edgeVectors pts cell ptI = some e := by
  obtain ⟨P, hlen, hP⟩ := exists_points pts cell hwf.2
  rw [hwf.1] at hlen
  obtain ⟨i1, i2, i3, h1, h2, h3, b1, b2, b3⟩ := nbr_tables ptI h
  exact ⟨_, edgeVectors_of_points pts cell P hP ptI i1 i2 i3 P[ptI] P[i1] P[i2] P[i3] h1 h2 h3
    (List.getElem?_eq_getElem _) (List.getElem?_eq_getElem _) (List.getElem?_eq_getElem _)
    (List.getElem?_eq_getElem _)⟩

theorem qA_of_edgeVectors {K : Type} [LinearOrderedField K] (pow : K → K → K)
    (pts : List (point K)) (cell : List Nat) (ptI : Nat)
    (e : point K × point K × point K) (h : edgeVectors pts cell ptI = some e) :
    qA pow pts cell ptI = some (cornerQuality pow e.1 e.2.1 e.2.2) := by
  simp only [qA, h]

theorem qA_eq (pts : List (point ℝ)) (cell : List Nat) (ptI : Nat)
    (e : point ℝ × point ℝ × point ℝ) (h : edgeVectors pts cell ptI = some e) :
    qA Real.rpow pts cell ptI = some (cornerQuality Real.rpow e.1 e.2.1 e.2.2) :=
  qA_of_edgeVectors Real.rpow pts cell ptI e h

theorem qA_bounds (pts : List (point ℝ)) (cell : List Nat) (ptI : Nat) (q : ℝ)
    (h : qA Real.rpow pts cell ptI = some q) : 0 ≤ q ∧ q ≤ 1 := by
  unfold qA at h
  cases he : edgeVectors pts cell ptI with
  | none => rw [he] at h; simp at h
  | some e =>
    rw [he] at h
    have hq : cornerQuality Real.rpow e.1 e.2.1 e.2.2 = q := by simpa using h
    rw [← hq]
    exact ⟨cornerQuality_nonneg _ _ _, cornerQuality_le_one _ _ _⟩

theorem cornerLoop_sum {K : Type} [LinearOrderedField K] (pow : K → K → K)
    (pts : List (point K)) (cell : List Nat) (f : Nat → K) (idxs : List Nat)
    (acc : K) (h : ∀ i ∈ idxs, qA pow pts cell i = some (f i)) :
    cornerLoop pow pts cell idxs acc = some (acc + (idxs.map f).sum) := by
  induction idxs generalizing acc with
  | nil => simp [cornerLoop]
  | cons i rest ih =>
    rw [cornerLoop, h i (List.mem_cons_self _ _)]
    simp only
    rw [ih _ (fun j hj => h j (List.mem_cons_of_mem _ hj))]
    simp [add_assoc]

/-- The quality of a well-formed cell is the mean of its eight corner qualities. -/
theorem cellQuality_mean {K : Type} [LinearOrderedField K] (pow : K → K → K)
    (pts : List (point K)) (cell : List Nat) (hwf : WellFormedCell pts cell) :
    ∃ cq : List K, cq.length = 8 ∧ (∀ i, i < 8 → qA pow pts cell i = cq[i]?) ∧
      cellQuality pow pts cell = some (cq.sum / 8) := by
  have hsome : ∀ i, i < 8 →
      qA pow pts cell i = some ((qA pow pts cell i).getD 0) := by
    intro i hi
    obtain ⟨e, he⟩ := edgeVectors_isSome pts cell hwf i hi
    rw [qA_of_edgeVectors pow pts cell i e he]
    rfl
  refine ⟨(List.range 8).map (fun i => (qA pow pts cell i).getD 0), by simp, ?_, ?_⟩
  · intro i hi
    rw [List.getElem?_map, List.getElem?_range hi]
    exact hsome i hi
  · unfold cellQuality
    rw [hwf.1, cornerLoop_sum pow pts cell (fun i => (qA pow pts cell i).getD 0) (List.range 8) 0
      (fun i hi => hsome i (List.mem_range.1 hi))]
    simp

theorem cellQuality_eq (pts : List (point ℝ)) (cell : List Nat) (hwf : WellFormedCell pts cell) :
    ∃ cq : List ℝ, cq.length = 8 ∧ (∀ i, i < 8 → qA Real.rpow pts cell i = cq[i]?) ∧
      cellQuality Real.rpow pts cell = some (cq.sum / 8) :=
  cellQuality_mean Real.rpow pts cell hwf

theorem sum_eight (cq : List ℝ) (h : cq.length = 8) :
    ∃ a0 a1 a2 a3 a4 a5 a6 a7, cq = [a0, a1, a2, a3, a4, a5, a6, a7] := by
  match cq, h with
  | [a0, a1, a2, a3, a4, a5, a6, a7], _ => exact ⟨a0, a1, a2, a3, a4, a5, a6, a7, rfl⟩

theorem sum_le_of_bounds (cq : List ℝ) (lo hi : ℝ) (h : ∀ q ∈ cq, lo ≤ q ∧ q ≤ hi) :
    lo * cq.length ≤ cq.sum ∧ cq.sum ≤ hi * cq.length := by
  induction cq with
  | nil => simp
  | cons a t ih =>
    have ha := h a (List.mem_cons_self _ _)
    have ht := ih (fun q hq => h q (List.mem_cons_of_mem _ hq))
    simp only [List.sum_cons, List.length_cons, Nat.cast_add, Nat.cast_one]
    constructor <;> nlinarith [ha.1, ha.2, ht.1, ht.2]

theorem cellQuality_bounds (pts : List (point ℝ)) (cell : List Nat)
    (hwf : WellFormedCell pts cell) :
    ∃ q, cellQuality Real.rpow pts cell = some q ∧ 0 ≤ q ∧ q ≤ 1 := by
  obtain ⟨cq, hlen, hq, hcell⟩ := cellQuality_eq pts cell hwf
  refine ⟨_, hcell, ?_, ?_⟩
  all_goals
    have hb : ∀ q ∈ cq, (0 : ℝ) ≤ q ∧ q ≤ 1 := by
      intro q hq1
      obtain ⟨i, hi, rfl⟩ := List.getElem_of_mem hq1
      have h1 := hq i (hlen ▸ hi)
      rw [List.getElem?_eq_getElem hi] at h1
      exact qA_bounds pts cell i _ h1
    have hs := sum_le_of_bounds cq 0 1 hb
    rw [hlen] at hs
    norm_num at hs
  · exact div_nonneg hs.1 (by norm_num)
  · rw [div_le_one (by norm_num)]
    exact hs.2

theorem forall₂_cellQuality (pts : List (point ℝ)) (cellLst : List (List Nat))
    (hwf : ∀ cell ∈ cellLst, WellFormedCell pts cell) :
    ∃ qs : List ℝ,
      List.Forall₂ (fun cell q => cellQuality Real.rpow pts cell = some q) cellLst qs := by
  induction cellLst with
  | nil => exact ⟨[], List.Forall₂.nil⟩
  | cons cell rest ih =>
    obtain ⟨qs, hqs⟩ := ih (fun x hx => hwf x (List.mem_cons_of_mem _ hx))
    obtain ⟨q, hq, _⟩ := cellQuality_bounds pts cell (hwf cell (List.mem_cons_self _ _))
    exact ⟨q :: qs, List.Forall₂.cons hq hqs⟩

theorem forall₂_mem_quality {K : Type} [LinearOrderedField K] (pow : K → K → K)
    (pts : List (point K)) (cellLst : List (List Nat)) (qs : List K)
    (h : List.Forall₂ (fun cell q => cellQuality pow pts cell = some q) cellLst qs)
    (cell : List Nat) (q : K) (hc : cell ∈ cellLst)
    (hq : cellQuality pow pts cell = some q) : q ∈ qs := by
  induction h with
  | nil => simp at hc
  | @cons x y rest qs1 hxy _ ih =>
    rcases List.mem_cons.1 hc with rfl | hc1
    · rw [hq] at hxy
      rw [Option.some.inj hxy]
      exact List.mem_cons_self _ _
    · exact List.mem_cons_of_mem _ (ih hc1)

theorem forall₂_mem (pts : List (point ℝ)) (cellLst : List (List Nat)) (qs : List ℝ)
    (h : List.Forall₂ (fun cell q => cellQuality Real.rpow pts cell = some q) cellLst qs)
    (cell : List Nat) (q : ℝ) (hc : cell ∈ cellLst)
    (hq : cellQuality Real.rpow pts cell = some q) : q ∈ qs :=
  forall₂_mem_quality Real.rpow pts cellLst qs h cell q hc hq

theorem qualityLoopFrom_min {K : Type} [LinearOrderedField K] (pow : K → K → K)
    (pts : List (point K)) (cellLst : List (List Nat)) (qs : List K)
    (h : List.Forall₂ (fun cell q => cellQuality pow pts cell = some q) cellLst qs)
    (s : K × K) :
    ∃ r, qualityLoopFrom pow pts cellLst s = some r ∧ r.2 = s.2 + qs.sum ∧
      r.1 ≤ s.1 ∧ (∀ q ∈ qs, r.1 ≤ q) ∧ (r.1 = s.1 ∨ r.1 ∈ qs) := by
  induction h generalizing s with
  | nil => exact ⟨s, rfl, by simp, le_refl _, by simp, Or.inl rfl⟩
  | @cons cell q rest qs hq _ ih =>
    obtain ⟨r, hr, hsum, hle, hall, hmem⟩ := ih (if q < s.1 then q else s.1, s.2 + q)
    refine ⟨r, ?_, ?_, ?_, ?_, ?_⟩
    · rw [qualityLoopFrom, hq]
      exact hr
    · rw [hsum]
      simp [add_assoc]
    · refine le_trans hle ?_
      show (if q < s.1 then q else s.1) ≤ s.1
      split_ifs with hlt
      · exact hlt.le
      · exact le_refl _
    · intro x hx
      rcases List.mem_cons.1 hx with rfl | hx
      · refine le_trans hle ?_
        show (if x < s.1 then x else s.1) ≤ x
        split_ifs with hlt
        · exact le_refl _
        · exact not_lt.1 hlt
      · exact hall x hx
    · rcases hmem with h1 | h1
      · have h2 : (if q < s.1 then q else s.1) = q ∨ (if q < s.1 then q else s.1) = s.1 := by
          split_ifs <;> simp
        rcases h2 with h2 | h2
        · right
          rw [h1]
          show (if q < s.1 then q else s.1) ∈ q :: qs
          rw [h2]
          exact List.mem_cons_self _ _
        · left
          rw [h1]
          exact h2
      · exact Or.inr (List.mem_cons_of_mem _ h1)

theorem qualityLoopFrom_eq (pts : List (point ℝ)) (cellLst : List (List Nat)) (qs : List ℝ)
    (h : List.Forall₂ (fun cell q => cellQuality Real.rpow pts cell = some q) cellLst qs)
    (s : ℝ × ℝ) :
    ∃ r, qualityLoopFrom Real.rpow pts cellLst s = some r ∧ r.2 = s.2 + qs.sum ∧
      r.1 ≤ s.1 ∧ (∀ q ∈ qs, r.1 ≤ q) ∧ (r.1 = s.1 ∨ r.1 ∈ qs) :=
  qualityLoopFrom_min Real.rpow pts cellLst qs h s

/-- The report of the quality loop on a non-empty well-formed mesh. -/
theorem qualityReport_eq (pts : List (point ℝ)) (cellLst : List (List Nat)) (qs : List ℝ)
    (hne : cellLst ≠ [])
    (hwf : ∀ cell ∈ cellLst, WellFormedCell pts cell)
    (h : List.Forall₂ (fun cell q => cellQuality Real.rpow pts cell = some q) cellLst qs) :
    ∃ qmin ∈ qs, (∀ q ∈ qs, qmin ≤ q) ∧
      qualityReport Real.rpow pts cellLst = some (qs.sum / (cellLst.length : ℝ), qmin) := by
  obtain ⟨r, hr, hsum, hle, hall, hmem⟩ := qualityLoopFrom_eq pts cellLst qs h (1, 0)
  have hrep : qualityReport Real.rpow pts cellLst = some (qs.sum / (cellLst.length : ℝ), r.1) := by
    rw [qualityReport, hr]
    simp [hsum]
  refine ⟨r.1, ?_, hall, hrep⟩
  rcases hmem with h1 | h1
  · -- the minimum stayed at its initial value 1: then some cell has quality 1
    cases h with
    | nil => exact absurd rfl hne
    | @cons cell q rest qs1 hq hrest =>
      have hq1 : q ≤ 1 := by
        obtain ⟨q', hq', _, hb⟩ := cellQuality_bounds pts cell (hwf cell (List.mem_cons_self _ _))
        rw [hq] at hq'
        rw [Option.some.inj hq']
        exact hb
      have h2 : r.1 ≤ q := hall q (List.mem_cons_self _ _)
      have h3 : r.1 = q := le_antisymm h2 (by rw [h1]; exact hq1)
      rw [h3]
      exact List.mem_cons_self _ _
  · exact h1

theorem wellFormed_oneCell_cube :
    WellFormedCell (cubeCorners ({ x := 0, y := 0, z := 0 } : point ℝ) 1) oneCell := by
  refine ⟨rfl, ?_⟩
  intro l hl
  simp only [oneCell, List.mem_cons, List.mem_singleton, List.not_mem_nil, or_false] at hl
  simp only [cubeCorners, List.length_cons, List.length_nil]
  omega

theorem wellFormed_unitCube : ∀ cell ∈ unitCubeCells, WellFormedCell (unitCubePts ℝ) cell := by
  intro cell hc
  simp only [unitCubeCells, List.mem_cons, List.mem_singleton, List.not_mem_nil, or_false] at hc
  rcases hc with rfl | rfl | rfl | rfl | rfl | rfl | rfl | rfl <;>
    exact ⟨rfl, by
      intro l hl
      simp only [List.mem_cons, List.mem_singleton, List.not_mem_nil, or_false] at hl
      simp only [unitCubePts, List.length_cons, List.length_nil]
      omega⟩

theorem wellFormed_inverted : WellFormedCell (invertedPts ℝ) oneCell := by
  refine ⟨rfl, ?_⟩
  intro l hl
  simp only [oneCell, List.mem_cons, List.mem_singleton, List.not_mem_nil, or_false] at hl
  simp only [invertedPts, List.length_cons, List.length_nil]
  omega

theorem wellFormed_collapsed : WellFormedCell (collapsedPts ℝ) oneCell := by
  refine ⟨rfl, ?_⟩
  intro l hl
  simp only [oneCell, List.mem_cons, List.mem_singleton, List.not_mem_nil, or_false] at hl
  simp only [collapsedPts, List.length_cons, List.length_nil]
  omega

/-! ## Quality diagnostic: the claims -/

/-- C1 (per-corner quality bound): whenever the quality `qA` of a corner is
computed, with `p1`, `p2`, `p3` the edge vectors of that corner and `sigma` the
determinant of the matrix with these rows, over the real numbers: if
`sigma ≤ 0` then `qA = 0`, and if `sigma > 0` then
`qA = 3 * sigma^(2/3) / magSqr` and `0 < qA ≤ 1`. -/
theorem corner_quality_bound (pts : List (point ℝ)) (ptLabels : List Nat) (ptI : Nat) (q : ℝ)
    (h : qA Real.rpow pts ptLabels ptI = some q) :
    ∃ p1 p2 p3, edgeVectors pts ptLabels ptI = some (p1, p2, p3) ∧
      (det (Tensor.ofRows p1 p2 p3) ≤ 0 → q = 0) ∧
      (0 < det (Tensor.ofRows p1 p2 p3) →
        q = 3 * det (Tensor.ofRows p1 p2 p3) ^ ((2 : ℝ) / 3) / magSqr (Tensor.ofRows p1 p2 p3) ∧
        0 < q ∧ q ≤ 1) := by
  unfold qA at h
  cases he : edgeVectors pts ptLabels ptI with
  | none => rw [he] at h; simp at h
  | some e =>
    obtain ⟨p1, p2, p3⟩ := e
    rw [he] at h
    have hq : cornerQuality Real.rpow p1 p2 p3 = q := by simpa using h
    refine ⟨p1, p2, p3, rfl, ?_, ?_⟩
    · intro hs
      rw [← hq]
      exact cornerQuality_of_nonpos p1 p2 p3 hs
    · intro hs
      rw [← hq]
      exact ⟨cornerQuality_of_pos p1 p2 p3 hs, cornerQuality_pos p1 p2 p3 hs,
        cornerQuality_le_one p1 p2 p3⟩

theorem forall₂_cellQuality_mean {K : Type} [LinearOrderedField K] (pow : K → K → K)
    (pts : List (point K)) (cellLst : List (List Nat))
    (hwf : ∀ cell ∈ cellLst, WellFormedCell pts cell) :
    ∃ qs : List K,
      List.Forall₂ (fun cell q => cellQuality pow pts cell = some q ∧
        ∃ cq : List K, cq.length = 8 ∧ (∀ i, i < 8 → qA pow pts cell i = cq[i]?) ∧
          q = cq.sum / 8) cellLst qs := by
  induction cellLst with
  | nil => exact ⟨[], List.Forall₂.nil⟩
  | cons cell rest ih =>
    obtain ⟨qs, hqs⟩ := ih (fun x hx => hwf x (List.mem_cons_of_mem _ hx))
    obtain ⟨cq, hlen, hcq, hcell⟩ :=
      cellQuality_mean pow pts cell (hwf cell (List.mem_cons_self _ _))
    exact ⟨cq.sum / 8 :: qs, List.Forall₂.cons ⟨hcell, cq, hlen, hcq, rfl⟩ hqs⟩

/-- The report of the quality loop for an arbitrary scalar field and power
function: the minimum is the smaller of 1 and the least cell quality. -/
theorem qualityReport_min {K : Type} [LinearOrderedField K] (pow : K → K → K)
    (pts : List (point K)) (cellLst : List (List Nat)) (qs : List K)
    (h : List.Forall₂ (fun cell q => cellQuality pow pts cell = some q) cellLst qs) :
    ∃ qmin, qualityReport pow pts cellLst = some (qs.sum / (cellLst.length : K), qmin) ∧
      qmin ≤ 1 ∧ (∀ q ∈ qs, qmin ≤ q) ∧ (qmin = 1 ∨ qmin ∈ qs) := by
  obtain ⟨r, hr, hsum, hle, hall, hmem⟩ := qualityLoopFrom_min pow pts cellLst qs h (1, 0)
  refine ⟨r.1, ?_, hle, hall, hmem⟩
  rw [qualityReport, hr]
  simp [hsum]

/-- C3, as amended (mesh-level aggregates): for a non-empty mesh of well-formed
cells, whatever the scalar field and the power function, there is a list `qs`
of cell qualities, one per cell, each the arithmetic mean of the 8 corner
qualities of its cell; the reported average is the sum of `qs` divided by the
number of cells; and the reported minimum is the smaller of 1 and the least
element of `qs`: it is at most 1 and at most every cell quality, it is 1 or a
cell quality, and it is a cell quality as soon as some cell quality is at
most 1. -/
theorem quality_aggregates {K : Type} [LinearOrderedField K] (pow : K → K → K)
    (pts : List (point K)) (cellLst : List (List Nat))
    (hne : cellLst ≠ []) (hwf : ∀ cell ∈ cellLst, WellFormedCell pts cell) :
    ∃ qs : List K, qs ≠ [] ∧
      List.Forall₂ (fun cell q => cellQuality pow pts cell = some q ∧
        ∃ cq : List K, cq.length = 8 ∧ (∀ i, i < 8 → qA pow pts cell i = cq[i]?) ∧
          q = cq.sum / 8) cellLst qs ∧
      ∃ qmin, qualityReport pow pts cellLst = some (qs.sum / (cellLst.length : K), qmin) ∧
        qmin ≤ 1 ∧ (∀ q ∈ qs, qmin ≤ q) ∧ (qmin = 1 ∨ qmin ∈ qs) ∧
        ((∃ q ∈ qs, q ≤ 1) → qmin ∈ qs) := by
  obtain ⟨qs, hqs⟩ := forall₂_cellQuality_mean pow pts cellLst hwf
  have hlen : cellLst.length = qs.length := hqs.length_eq
  have hqne : qs ≠ [] := by
    intro h0
    rw [h0] at hlen
    exact hne (List.length_eq_zero.1 hlen)
  obtain ⟨qmin, hrep, hle, hall, hor⟩ :=
    qualityReport_min pow pts cellLst qs (hqs.imp (fun _ _ hq => hq.1))
  refine ⟨qs, hqne, hqs, qmin, hrep, hle, hall, hor, ?_⟩
  rintro ⟨q, hq, hq1⟩
  rcases hor with h1 | h1
  · have h2 : qmin ≤ q := hall q hq
    have h3 : q = qmin := le_antisymm (by rw [h1]; exact hq1) h2
    rw [← h3]
    exact hq
  · exact h1

theorem qA_quarterCube :
    ∀ i, i < 8 → qA stdPowDouble (quarterCubePts ℚ) oneCell i = some (1 + 1 / 2 ^ 52) := by
  intro i hi
  interval_cases i <;>
    norm_num [qA, edgeVectors, cornerPoint, v1, v2, v3, oneCell, quarterCubePts, cubeCorners,
      cornerQuality, det, magSqr, Tensor.ofRows, point.sub, stdPowDouble]

theorem cellQuality_quarterCube :
    cellQuality stdPowDouble (quarterCubePts ℚ) oneCell = some (1 + 1 / 2 ^ 52) := by
  have hr : List.range (oneCell.length) = [0, 1, 2, 3, 4, 5, 6, 7] := by decide
  rw [cellQuality, hr]
  simp only [cornerLoop, qA_quarterCube 0 (by norm_num), qA_quarterCube 1 (by norm_num),
    qA_quarterCube 2 (by norm_num), qA_quarterCube 3 (by norm_num),
    qA_quarterCube 4 (by norm_num), qA_quarterCube 5 (by norm_num),
    qA_quarterCube 6 (by norm_num), qA_quarterCube 7 (by norm_num)]
  norm_num

/-- C3, counterexample: on the cube of edge `1/4`, with the value that
`std::pow(1/64, 2.0/3.0)` has in double arithmetic, every corner quality and
the cell quality are `1 + 2^-52`, so `qAt < qAmin` never holds: the reported
minimum is the initial value 1, which is the quality of no cell. -/
theorem reported_min_is_no_cell_quality :
    WellFormedCell (quarterCubePts ℚ) oneCell ∧
    cellQuality stdPowDouble (quarterCubePts ℚ) oneCell = some (1 + 1 / 2 ^ 52) ∧
    qualityReport stdPowDouble (quarterCubePts ℚ) [oneCell] = some (1 + 1 / 2 ^ 52, 1) ∧
    ¬ ∃ cell ∈ [oneCell], cellQuality stdPowDouble (quarterCubePts ℚ) cell = some 1 := by
  refine ⟨⟨rfl, ?_⟩, cellQuality_quarterCube, ?_, ?_⟩
  · intro l hl
    simp only [oneCell, List.mem_cons, List.mem_singleton, List.not_mem_nil, or_false] at hl
    simp only [quarterCubePts, cubeCorners, List.length_cons, List.length_nil]
    omega
  · rw [qualityReport, qualityLoopFrom, cellQuality_quarterCube]
    norm_num [qualityLoopFrom]
  · rintro ⟨cell, hc, hq⟩
    rw [List.mem_singleton] at hc
    rw [hc, cellQuality_quarterCube] at hq
    norm_num at hq

/-- C7 (an inverted cell lowers the minimum): in a non-empty mesh of
well-formed cells, if corner `ptI` of a cell has `sigma ≤ 0`, then the quality
of that corner is 0, the quality of that cell is at most 7/8, and the quality
loop still reports an average and a minimum, the minimum being below 1. -/
theorem inverted_cell_lowers_min (pts : List (point ℝ)) (cellLst : List (List Nat))
    (cell : List Nat) (ptI : Nat) (e : point ℝ × point ℝ × point ℝ)
    (hwf : ∀ x ∈ cellLst, WellFormedCell pts x) (hc : cell ∈ cellLst) (hpt : ptI < 8)
    (he : edgeVectors pts cell ptI = some e)
    (hs : det (Tensor.ofRows e.1 e.2.1 e.2.2) ≤ 0) :
    qA Real.rpow pts cell ptI = some 0 ∧
      (∃ q, cellQuality Real.rpow pts cell = some q ∧ q ≤ 7 / 8) ∧
      ∃ avg qmin, qualityReport Real.rpow pts cellLst = some (avg, qmin) ∧ qmin < 1 := by
  have hq0 : qA Real.rpow pts cell ptI = some 0 := by
    rw [qA_eq pts cell ptI e he, cornerQuality_of_nonpos _ _ _ hs]
  obtain ⟨cq, hlen, hcq, hcell⟩ := cellQuality_eq pts cell (hwf cell hc)
  have hb : ∀ i, (hi : i < cq.length) → 0 ≤ cq[i] ∧ cq[i] ≤ 1 := by
    intro i hi
    have h1 := hcq i (hlen ▸ hi)
    rw [List.getElem?_eq_getElem hi] at h1
    exact qA_bounds pts cell i _ h1
  have hzero : cq[ptI]? = some 0 := by rw [← hcq ptI hpt, hq0]
  have hsum : cq.sum / 8 ≤ 7 / 8 := by
    obtain ⟨a0, a1, a2, a3, a4, a5, a6, a7, rfl⟩ := sum_eight cq hlen
    have b0 := hb 0 (by simp)
    have b1 := hb 1 (by simp)
    have b2 := hb 2 (by simp)
    have b3 := hb 3 (by simp)
    have b4 := hb 4 (by simp)
    have b5 := hb 5 (by simp)
    have b6 := hb 6 (by simp)
    have b7 := hb 7 (by simp)
    simp only [List.getElem_cons_zero, List.getElem_cons_succ] at b0 b1 b2 b3 b4 b5 b6 b7
    simp only [List.sum_cons, List.sum_nil]
    interval_cases ptI <;> simp at hzero <;> subst hzero <;> linarith [b0.2, b1.2, b2.2, b3.2,
      b4.2, b5.2, b6.2, b7.2]
  refine ⟨hq0, ⟨_, hcell, hsum⟩, ?_⟩
  obtain ⟨qs, hqs⟩ := forall₂_cellQuality pts cellLst hwf
  have hne : cellLst ≠ [] := List.ne_nil_of_mem hc
  obtain ⟨qmin, _, hmin, hrep⟩ := qualityReport_eq pts cellLst qs hne hwf hqs
  refine ⟨_, qmin, hrep, ?_⟩
  have hin : cq.sum / 8 ∈ qs := forall₂_mem pts cellLst qs hqs cell _ hc hcell
  have := hmin _ hin
  linarith

/-! ## Right-angled corners and cubes -/

/-- The square of the determinant is the Gram determinant of the rows. -/
theorem det_sq_gram (p1 p2 p3 : point ℝ) :
    det (Tensor.ofRows p1 p2 p3) ^ 2 =
      p1.dot p1 * (p2.dot p2 * p3.dot p3) - p1.dot p1 * p2.dot p3 ^ 2
        - p2.dot p2 * p1.dot p3 ^ 2 - p3.dot p3 * p1.dot p2 ^ 2
        + 2 * p1.dot p2 * p2.dot p3 * p1.dot p3 := by
  simp only [det, Tensor.ofRows, point.dot]
  ring

theorem cornerQuality_eq_one (p1 p2 p3 : point ℝ)
    (h12 : p1.dot p2 = 0) (h13 : p1.dot p3 = 0) (h23 : p2.dot p3 = 0)
    (e12 : p1.dot p1 = p2.dot p2) (e23 : p2.dot p2 = p3.dot p3)
    (hs : 0 < det (Tensor.ofRows p1 p2 p3)) :
    cornerQuality Real.rpow p1 p2 p3 = 1 := by
  have hgram := det_sq_gram p1 p2 p3
  rw [h12, h13, h23, e12, e23] at hgram
  have hcube : det (Tensor.ofRows p1 p2 p3) ^ 2 = p3.dot p3 ^ 3 := by rw [hgram]; ring
  have hnn : 0 ≤ p3.dot p3 := dot_self_nonneg p3
  have hpos : 0 < p3.dot p3 := by
    rcases eq_or_lt_of_le hnn with h0 | h0
    · rw [← h0] at hcube
      have : 0 < det (Tensor.ofRows p1 p2 p3) ^ 2 := pow_pos hs 2
      rw [hcube] at this
      norm_num at this
    · exact h0
  have hpow : det (Tensor.ofRows p1 p2 p3) ^ ((2 : ℝ) / 3) = p3.dot p3 := by
    rw [rpow_two_thirds _ hs.le, hcube, ← Real.rpow_natCast, ← Real.rpow_mul hnn]
    norm_num
  rw [cornerQuality_of_pos p1 p2 p3 hs, hpow, magSqr_ofRows, e12, e23]
  field_simp
  ring

/-- C9, as amended (right-angled corner with equal edges scores 1): for every
corner whose three edge vectors are mutually orthogonal, of equal length and
positively oriented (`sigma > 0`), the corner quality equals 1. -/
theorem right_angled_equal_edges_score_one (p1 p2 p3 : point ℝ)
    (h12 : p1.dot p2 = 0) (h13 : p1.dot p3 = 0) (h23 : p2.dot p3 = 0)
    (e12 : p1.dot p1 = p2.dot p2) (e23 : p2.dot p2 = p3.dot p3)
    (hs : 0 < det (Tensor.ofRows p1 p2 p3)) :
    cornerQuality Real.rpow p1 p2 p3 =
        3 * det (Tensor.ofRows p1 p2 p3) ^ ((2 : ℝ) / 3) / magSqr (Tensor.ofRows p1 p2 p3) ∧
      cornerQuality Real.rpow p1 p2 p3 = 1 :=
  ⟨cornerQuality_of_pos p1 p2 p3 hs, cornerQuality_eq_one p1 p2 p3 h12 h13 h23 e12 e23 hs⟩

/-- C9, counterexample: the corner with edge vectors `(8,0,0)`, `(0,1,0)`,
`(0,0,1)` is right-angled, non-degenerate and positively oriented, and its
quality is `2/11`, not 1. -/
theorem right_angled_corner_not_one :
    ¬ ∀ p1 p2 p3 : point ℝ,
        p1 ≠ { x := 0, y := 0, z := 0 } → p2 ≠ { x := 0, y := 0, z := 0 } →
        p3 ≠ { x := 0, y := 0, z := 0 } →
        p1.dot p2 = 0 → p1.dot p3 = 0 → p2.dot p3 = 0 →
        0 < det (Tensor.ofRows p1 p2 p3) →
        cornerQuality Real.rpow p1 p2 p3 = 1 := by
  intro hall
  have h := hall { x := 8, y := 0, z := 0 } { x := 0, y := 1, z := 0 } { x := 0, y := 0, z := 1 }
    (by intro h; have := congrArg point.x h; norm_num at this)
    (by intro h; have := congrArg point.y h; norm_num at this)
    (by intro h; have := congrArg point.z h; norm_num at this)
    (by norm_num [point.dot]) (by norm_num [point.dot]) (by norm_num [point.dot])
    (by norm_num [det, Tensor.ofRows])
  have hdet : det (Tensor.ofRows ({ x := 8, y := 0, z := 0 } : point ℝ)
      { x := 0, y := 1, z := 0 } { x := 0, y := 0, z := 1 }) = 8 := by
    norm_num [det, Tensor.ofRows]
  have hmag : magSqr (Tensor.ofRows ({ x := 8, y := 0, z := 0 } : point ℝ)
      { x := 0, y := 1, z := 0 } { x := 0, y := 0, z := 1 }) = 66 := by
    norm_num [magSqr, Tensor.ofRows]
  have hpow : (8 : ℝ) ^ ((2 : ℝ) / 3) = 4 := by
    rw [show (8 : ℝ) = 2 ^ (3 : ℝ) by norm_num, ← Real.rpow_mul (by norm_num)]
    norm_num
  rw [cornerQuality_of_pos _ _ _ (by rw [hdet]; norm_num), hdet, hmag, hpow] at h
  norm_num at h

/-! ## Collapsed cells -/

theorem det_row1_zero (a p2 p3 : point ℝ) : det (Tensor.ofRows (a.sub a) p2 p3) = 0 := by
  simp only [det, Tensor.ofRows, point.sub]
  ring

theorem det_row2_zero (a p1 p3 : point ℝ) : det (Tensor.ofRows p1 (a.sub a) p3) = 0 := by
  simp only [det, Tensor.ofRows, point.sub]
  ring

theorem det_row3_zero (a p1 p2 : point ℝ) : det (Tensor.ofRows p1 p2 (a.sub a)) = 0 := by
  simp only [det, Tensor.ofRows, point.sub]
  ring

/-- Being joined by a cell edge is symmetric in the neighbour tables, and a
corner is never its own neighbour. -/
theorem adjacent_symm (i j : Nat) (hi : i < 8)
    (hadj : v1[i]? = some j ∨ v2[i]? = some j ∨ v3[i]? = some j) :
    j < 8 ∧ i ≠ j ∧ (v1[j]? = some i ∨ v2[j]? = some i ∨ v3[j]? = some i) := by
  interval_cases i <;> simp [v1, v2, v3] at hadj <;>
    rcases hadj with rfl | rfl | rfl <;> simp [v1, v2, v3]

theorem qA_zero_of_coincident (pts : List (point ℝ)) (cell : List Nat)
    (hwf : WellFormedCell pts cell) (i j : Nat) (hi : i < 8)
    (hadj : v1[i]? = some j ∨ v2[i]? = some j ∨ v3[i]? = some j)
    (hco : cornerPoint pts cell i = cornerPoint pts cell j) :
    qA Real.rpow pts cell i = some 0 := by
  obtain ⟨P, hlen, hP⟩ := exists_points pts cell hwf.2
  rw [hwf.1] at hlen
  obtain ⟨i1, i2, i3, h1, h2, h3, b1, b2, b3⟩ := nbr_tables i hi
  have he := edgeVectors_of_points pts cell P hP i i1 i2 i3 P[i] P[i1] P[i2] P[i3] h1 h2 h3
    (List.getElem?_eq_getElem _) (List.getElem?_eq_getElem _) (List.getElem?_eq_getElem _)
    (List.getElem?_eq_getElem _)
  rw [qA_eq pts cell i _ he]
  have hjlt : j < 8 := (adjacent_symm i j hi hadj).1
  have hPij : P[i] = P[j] := by
    rw [cornerPoint_eq pts cell P hP, cornerPoint_eq pts cell P hP,
      List.getElem?_eq_getElem (by omega), List.getElem?_eq_getElem (by omega)] at hco
    exact Option.some.inj hco
  congr 1
  apply cornerQuality_of_nonpos
  rw [h1, h2, h3] at hadj
  rcases hadj with h | h | h
  · have : i1 = j := Option.some.inj h
    subst this
    show det (Tensor.ofRows (P[i1].sub P[i]) _ _) ≤ 0
    rw [hPij, det_row1_zero]
  · have : i2 = j := Option.some.inj h
    subst this
    show det (Tensor.ofRows _ (P[i2].sub P[i]) _) ≤ 0
    rw [hPij, det_row2_zero]
  · have : i3 = j := Option.some.inj h
    subst this
    show det (Tensor.ofRows _ _ (P[i3].sub P[i])) ≤ 0
    rw [hPij, det_row3_zero]

theorem cornerQuality_eq_zero_iff (p1 p2 p3 : point ℝ) :
    cornerQuality Real.rpow p1 p2 p3 ≤ 0 ↔ det (Tensor.ofRows p1 p2 p3) ≤ 0 := by
  constructor
  · intro h
    by_contra hn
    have := cornerQuality_pos p1 p2 p3 (not_le.1 hn)
    linarith
  · intro h
    rw [cornerQuality_of_nonpos p1 p2 p3 h]

/-- C8, as amended (collapsed edge): in a well-formed cell in which the two
corner points at the ends of a cell edge coincide, the corner quality is 0 at
both of these corners and the cell quality lies between 0 and 3/4; the cell
quality is `≤ 0` exactly when all eight corner determinants are `≤ 0`. -/
theorem collapsed_edge_quality (pts : List (point ℝ)) (cell : List Nat) (i j : Nat)
    (hwf : WellFormedCell pts cell) (hi : i < 8)
    (hadj : v1[i]? = some j ∨ v2[i]? = some j ∨ v3[i]? = some j)
    (hco : cornerPoint pts cell i = cornerPoint pts cell j) :
    qA Real.rpow pts cell i = some 0 ∧ qA Real.rpow pts cell j = some 0 ∧
      ∃ q, cellQuality Real.rpow pts cell = some q ∧ 0 ≤ q ∧ q ≤ 3 / 4 ∧
        (q ≤ 0 ↔ ∀ k, k < 8 → ∃ e, edgeVectors pts cell k = some e ∧
          det (Tensor.ofRows e.1 e.2.1 e.2.2) ≤ 0) := by
  obtain ⟨hj, hij, hadj2⟩ := adjacent_symm i j hi hadj
  have hqi := qA_zero_of_coincident pts cell hwf i j hi hadj hco
  have hqj := qA_zero_of_coincident pts cell hwf j i hj hadj2 hco.symm
  obtain ⟨cq, hlen, hcq, hcell⟩ := cellQuality_eq pts cell hwf
  have hb : ∀ k, (hk : k < cq.length) → 0 ≤ cq[k] ∧ cq[k] ≤ 1 := by
    intro k hk
    have h1 := hcq k (hlen ▸ hk)
    rw [List.getElem?_eq_getElem hk] at h1
    exact qA_bounds pts cell k _ h1
  have hnn : ∀ x ∈ cq, (0 : ℝ) ≤ x := by
    intro x hx
    obtain ⟨k, hk, rfl⟩ := List.getElem_of_mem hx
    exact (hb k hk).1
  have hzi : cq[i]? = some 0 := by rw [← hcq i hi, hqi]
  have hzj : cq[j]? = some 0 := by rw [← hcq j hj, hqj]
  refine ⟨hqi, hqj, _, hcell, div_nonneg (List.sum_nonneg hnn) (by norm_num), ?_, ?_⟩
  · obtain ⟨a0, a1, a2, a3, a4, a5, a6, a7, rfl⟩ := sum_eight cq hlen
    have b0 := hb 0 (by simp)
    have b1 := hb 1 (by simp)
    have b2 := hb 2 (by simp)
    have b3 := hb 3 (by simp)
    have b4 := hb 4 (by simp)
    have b5 := hb 5 (by simp)
    have b6 := hb 6 (by simp)
    have b7 := hb 7 (by simp)
    simp only [List.getElem_cons_zero, List.getElem_cons_succ] at b0 b1 b2 b3 b4 b5 b6 b7
    simp only [List.sum_cons, List.sum_nil]
    interval_cases i <;> simp [v1, v2, v3] at hadj <;> rcases hadj with rfl | rfl | rfl <;>
      simp at hzi hzj <;> subst hzi <;> subst hzj <;>
      linarith [b0.2, b1.2, b2.2, b3.2, b4.2, b5.2, b6.2, b7.2]
  · constructor
    · intro hq k hk
      obtain ⟨e, he⟩ := edgeVectors_isSome pts cell hwf k hk
      refine ⟨e, he, ?_⟩
      rw [← cornerQuality_eq_zero_iff]
      have hk2 : k < cq.length := hlen ▸ hk
      have h1 := hcq k hk
      rw [qA_eq pts cell k e he, List.getElem?_eq_getElem hk2] at h1
      rw [Option.some.inj h1]
      have h2 := List.single_le_sum hnn cq[k] (List.getElem_mem hk2)
      have h3 : cq.sum ≤ 0 := by
        have := mul_le_mul_of_nonneg_right hq (by norm_num : (0 : ℝ) ≤ 8)
        simpa using this
      linarith
    · intro hall
      have hz : ∀ x ∈ cq, x = 0 := by
        intro x hx
        obtain ⟨k, hk, rfl⟩ := List.getElem_of_mem hx
        obtain ⟨e, he, hdet⟩ := hall k (hlen ▸ hk)
        have h1 := hcq k (hlen ▸ hk)
        rw [qA_eq pts cell k e he, List.getElem?_eq_getElem hk,
          cornerQuality_of_nonpos _ _ _ hdet] at h1
        exact (Option.some.inj h1).symm
      rw [List.sum_eq_zero hz]
      norm_num

theorem qA_collapsed :
    qA Real.rpow (collapsedPts ℝ) oneCell 0 = some 0 ∧
    qA Real.rpow (collapsedPts ℝ) oneCell 1 = some 0 ∧
    qA Real.rpow (collapsedPts ℝ) oneCell 2 = some (3 / 4) ∧
    qA Real.rpow (collapsedPts ℝ) oneCell 3 = some 1 ∧
    qA Real.rpow (collapsedPts ℝ) oneCell 4 = some 1 ∧
    qA Real.rpow (collapsedPts ℝ) oneCell 5 = some (3 / 4) ∧
    qA Real.rpow (collapsedPts ℝ) oneCell 6 = some 1 ∧
    qA Real.rpow (collapsedPts ℝ) oneCell 7 = some 1 := by
  refine ⟨?_, ?_, ?_, ?_, ?_, ?_, ?_, ?_⟩ <;>
    norm_num [qA, edgeVectors, cornerPoint, v1, v2, v3, oneCell, collapsedPts, cornerQuality,
      det, magSqr, Tensor.ofRows, point.sub]

theorem cellQuality_collapsed :
    cellQuality Real.rpow (collapsedPts ℝ) oneCell = some (11 / 16) := by
  obtain ⟨h0, h1, h2, h3, h4, h5, h6, h7⟩ := qA_collapsed
  have hr : List.range (oneCell.length) = [0, 1, 2, 3, 4, 5, 6, 7] := by decide
  rw [cellQuality, hr]
  simp only [cornerLoop, h0, h1, h2, h3, h4, h5, h6, h7]
  norm_num

/-- C8, counterexample: the unit cube with corner 1 moved onto corner 0 is a
well-formed cell with two coincident corner points, and its cell quality is
`11/16`, which is not `≤ 0`. -/
theorem collapsed_cell_positive_quality :
    ¬ ∀ (pts : List (point ℝ)) (cell : List Nat) (q : ℝ),
        WellFormedCell pts cell →
        (∃ i j, i < 8 ∧ j < 8 ∧ i ≠ j ∧ cornerPoint pts cell i = cornerPoint pts cell j) →
        cellQuality Real.rpow pts cell = some q → q ≤ 0 := by
  intro hall
  have h := hall (collapsedPts ℝ) oneCell (11 / 16) wellFormed_collapsed
    ⟨0, 1, by norm_num, by norm_num, by norm_num, by
      simp [cornerPoint, oneCell, collapsedPts]⟩
    cellQuality_collapsed
  norm_num at h

/-! ## Instances on concrete meshes -/

/-- Witness of C1: corner 2 of the collapsed cube has quality `3/4`. -/
theorem corner_quality_bound_witness :
    ∃ p1 p2 p3, edgeVectors (collapsedPts ℝ) oneCell 2 = some (p1, p2, p3) ∧
      (det (Tensor.ofRows p1 p2 p3) ≤ 0 → (3 / 4 : ℝ) = 0) ∧
      (0 < det (Tensor.ofRows p1 p2 p3) →
        (3 / 4 : ℝ) =
          3 * det (Tensor.ofRows p1 p2 p3) ^ ((2 : ℝ) / 3) / magSqr (Tensor.ofRows p1 p2 p3) ∧
        (0 : ℝ) < 3 / 4 ∧ (3 / 4 : ℝ) ≤ 1) :=
  corner_quality_bound (collapsedPts ℝ) oneCell 2 (3 / 4) qA_collapsed.2.2.1

theorem wellFormed_twoCells :
    ∀ cell ∈ twoCells,
      WellFormedCell (cubeCorners ({ x := 0, y := 0, z := 0 } : point ℝ) 1) cell := by
  intro cell hc
  simp only [twoCells, List.mem_cons, List.mem_singleton, List.not_mem_nil, or_false] at hc
  rcases hc with rfl | rfl
  · exact wellFormed_oneCell_cube
  · refine ⟨rfl, ?_⟩
    intro l hl
    simp only [collapsedCell, List.mem_cons, List.mem_singleton, List.not_mem_nil,
      or_false] at hl
    simp only [cubeCorners, List.length_cons, List.length_nil]
    omega

theorem cellQuality_twoCells :
    cellQuality Real.rpow (cubeCorners ({ x := 0, y := 0, z := 0 } : point ℝ) 1) oneCell =
      some 1 ∧
    cellQuality Real.rpow (cubeCorners ({ x := 0, y := 0, z := 0 } : point ℝ) 1)
      collapsedCell = some (11 / 16) := by
  have hr1 : List.range (oneCell.length) = [0, 1, 2, 3, 4, 5, 6, 7] := by decide
  have hr2 : List.range (collapsedCell.length) = [0, 1, 2, 3, 4, 5, 6, 7] := by decide
  constructor
  · rw [cellQuality, hr1]
    norm_num [cornerLoop, qA, edgeVectors, cornerPoint, v1, v2, v3, oneCell, cubeCorners,
      cornerQuality, det, magSqr, Tensor.ofRows, point.sub]
  · rw [cellQuality, hr2]
    norm_num [cornerLoop, qA, edgeVectors, cornerPoint, v1, v2, v3, collapsedCell, cubeCorners,
      cornerQuality, det, magSqr, Tensor.ofRows, point.sub]

/-- Witness of the amended C3: on the mesh made of the unit cube (quality 1)
followed by the collapsed cell (quality 11/16) the minimum is lowered at the
second cell; the report is the average 27/32 and the minimum 11/16. -/
theorem quality_aggregates_witness :
    twoCells ≠ [] ∧
    (∀ cell ∈ twoCells,
      WellFormedCell (cubeCorners ({ x := 0, y := 0, z := 0 } : point ℝ) 1) cell) ∧
    qualityReport Real.rpow (cubeCorners ({ x := 0, y := 0, z := 0 } : point ℝ) 1) twoCells =
      some (27 / 32, 11 / 16) := by
  refine ⟨by decide, wellFormed_twoCells, ?_⟩
  obtain ⟨qs, _, hF, qmin, hrep, _, hall, hor, _⟩ :=
    quality_aggregates Real.rpow (cubeCorners ({ x := 0, y := 0, z := 0 } : point ℝ) 1)
      twoCells (by decide) wellFormed_twoCells
  obtain ⟨hc1, hc2⟩ := cellQuality_twoCells
  cases hF with
  | cons h1 hrest =>
    cases hrest with
    | cons h2 hnil =>
      cases hnil
      rw [hc1] at h1
      rw [hc2] at h2
      have e1 := Option.some.inj h1.1
      have e2 := Option.some.inj h2.1
      subst e1
      subst e2
      have hle : qmin ≤ 11 / 16 := hall _ (by simp)
      have hq : qmin = 11 / 16 := by
        rcases hor with h | h
        · rw [h] at hle
          norm_num at hle
        · simp only [List.mem_cons, List.mem_singleton, List.not_mem_nil, or_false] at h
          rcases h with h | h
          · rw [h] at hle
            norm_num at hle
          · exact h
      rw [hrep, hq]
      norm_num [twoCells]

/-- Witness of C7: the unit cube with corner 6 pulled inward to
`(1/4, 1/4, 1/4)` has a negative determinant at corner 6. -/
theorem inverted_cell_lowers_min_witness :
    det (Tensor.ofRows
        (({ x := 1, y := 0, z := 1 } : point ℝ).sub { x := 1 / 4, y := 1 / 4, z := 1 / 4 })
        (({ x := 0, y := 1, z := 1 } : point ℝ).sub { x := 1 / 4, y := 1 / 4, z := 1 / 4 })
        (({ x := 1, y := 1, z := 0 } : point ℝ).sub { x := 1 / 4, y := 1 / 4, z := 1 / 4 }))
      ≤ 0 ∧
    qA Real.rpow (invertedPts ℝ) oneCell 6 = some 0 ∧
      (∃ q, cellQuality Real.rpow (invertedPts ℝ) oneCell = some q ∧ q ≤ 7 / 8) ∧
      ∃ avg qmin, qualityReport Real.rpow (invertedPts ℝ) [oneCell] = some (avg, qmin) ∧
        qmin < 1 :=
  ⟨by norm_num [det, Tensor.ofRows, point.sub],
    inverted_cell_lowers_min (invertedPts ℝ) [oneCell] oneCell 6
      ((({ x := 1, y := 0, z := 1 } : point ℝ).sub { x := 1 / 4, y := 1 / 4, z := 1 / 4 }),
        (({ x := 0, y := 1, z := 1 } : point ℝ).sub { x := 1 / 4, y := 1 / 4, z := 1 / 4 }),
        (({ x := 1, y := 1, z := 0 } : point ℝ).sub { x := 1 / 4, y := 1 / 4, z := 1 / 4 }))
      (fun x hx => by
        rw [List.mem_singleton] at hx
        rw [hx]
        exact wellFormed_inverted)
      (List.mem_singleton.2 rfl) (by norm_num)
      (by simp [edgeVectors, cornerPoint, v1, v2, v3, oneCell, invertedPts])
      (by norm_num [det, Tensor.ofRows, point.sub])⟩

/-- Witness of the amended C8: corners 0 and 1 of the collapsed cube. -/
theorem collapsed_edge_quality_witness :
    qA Real.rpow (collapsedPts ℝ) oneCell 0 = some 0 ∧
      qA Real.rpow (collapsedPts ℝ) oneCell 1 = some 0 ∧
      ∃ q, cellQuality Real.rpow (collapsedPts ℝ) oneCell = some q ∧ 0 ≤ q ∧ q ≤ 3 / 4 ∧
        (q ≤ 0 ↔ ∀ k, k < 8 → ∃ e, edgeVectors (collapsedPts ℝ) oneCell k = some e ∧
          det (Tensor.ofRows e.1 e.2.1 e.2.2) ≤ 0) :=
  collapsed_edge_quality (collapsedPts ℝ) oneCell 0 1 wellFormed_collapsed (by norm_num)
    (Or.inr (Or.inr (by simp [v3])))
    (by simp [cornerPoint, oneCell, collapsedPts])

/-- Witness of the amended C9: the edge vectors `(0,1,0)`, `(0,0,1)`, `(1,0,0)`
of corner 0 of the unit cube. -/
theorem right_angled_equal_edges_score_one_witness :
    cornerQuality Real.rpow ({ x := 0, y := 1, z := 0 } : point ℝ) { x := 0, y := 0, z := 1 }
      { x := 1, y := 0, z := 0 } = 1 :=
  (right_angled_equal_edges_score_one { x := 0, y := 1, z := 0 } { x := 0, y := 0, z := 1 }
    { x := 1, y := 0, z := 0 } (by norm_num [point.dot]) (by norm_num [point.dot])
    (by norm_num [point.dot]) (by norm_num [point.dot]) (by norm_num [point.dot])
    (by norm_num [det, Tensor.ofRows])).2

/-- Witness of C10: four blocks with two zone names. -/
theorem zone_indexing_in_bounds_witness :
    0 < numZonedBlocks exampleBlocks ∧
    ∃ st, zoneLoop (numZonedBlocks exampleBlocks) exampleBlocks = some st ∧
      st.zoneCells.length = numZonedBlocks exampleBlocks ∧
      st.zoneMap.map Prod.snd = List.range st.zoneMap.length :=
  ⟨by decide,
    match zone_indexing_in_bounds exampleBlocks (by decide) with
    | ⟨st, h1, h2, _, h4, _⟩ => ⟨st, h1, h2, h4⟩⟩

end ExtBlockMesh
